import Mathlib

/-!
# QtDataSync LocalStore: a shallow embedding

The embedded program is `src/datasync/localstore.cpp`: a document store that keeps, per
document type, one SQL index table (`Key`, `Version`, `File`, `Checksum`) and one directory of
blob files, with a per-handle table-name cache and object cache, and a process-wide emitter
that forwards every committed change to every `LocalStore` instance.

Conventions of the embedding.

* Text (`QString`) is a `List Char`; raw bytes (`QByteArray`: type identifiers, file
  contents, digests) are a `List Nat`. Type identifiers are non-null: the null `QByteArray`
  is only what `reset()` sends through the emitter.
* Machine integers are `Nat` and `Int` with explicit wrapping where the source converts
  between widths (`QVariant::toInt` on the row count).
* The SQL database is a list of named tables, each a list of rows; the file system below the
  storage root is the `store` directory, its type directories and their files.
* Every step that can fail in the environment (a statement that does not execute, a file that
  does not open, a commit that is refused) fails when the `Env` of the call names it; the
  operation then takes the path of the C++ exception. A step also fails when the modelled
  state makes it fail (a statement on a table that does not exist, a file that is missing).
* Operations return the state they leave behind together with their result, so the state
  after a thrown exception can be inspected.
* The library functions the store calls but does not define (the binary serialisation of
  `QJsonDocument`, the SHA3-256 digest, the character comparison of the SQL `LIKE` operator)
  are the fields of a `Qt` record and stay parameters of every definition that uses them.
* The emitter is connected with `Qt::DirectConnection`: `onDataChange` and `onDataReset` of
  every handle run inside the emitting call. The signals a handle raises itself, directly or
  through a queued invocation, are recorded in its `raised` list.
-/

namespace QtDataSync

/-! ## Table naming (the name computation of `LocalStore::getTable`) -/

/-- Whether a byte is a UTF-8 continuation byte, `(b & 0xC0) == 0x80`. -/
def isContinuationByte (b : Nat) : Bool :=
  0x80 ≤ b && b < 0xC0

/-- The continuation bytes of one sequence: `needed` of them are read from `src` onto the
bits `uc` of the lead byte; `none` when too few bytes follow or one of them is no
continuation byte. -/
def readContinuation : Nat → Nat → List Nat → Option Nat
  | 0, uc, _ => some uc
  | _ + 1, _, [] => none
  | needed + 1, uc, c :: src =>
    if isContinuationByte c then readContinuation needed (uc * 64 + c % 64) src else none

/-- One multi-byte sequence under Qt 5's `QUtf8Functions::fromUtf8`, for a lead byte `b` that
is not ASCII: the code point and the number of continuation bytes it took, or `none` for
`Error` and `EndOfString` (a lead byte up to 0xC1 or from 0xF5 on, a missing or wrong
continuation byte, an overlong form, a surrogate, a value above U+10FFFF). -/
def decodeSequence (b : Nat) (src : List Nat) : Option (Nat × Nat) :=
  let checked (needed minimum uc : Nat) : Option (Nat × Nat) :=
    match readContinuation needed uc src with
    | none => none
    | some v =>
      if v < minimum then none
      else if 0xD800 ≤ v ∧ v ≤ 0xDFFF then none
      else if v > 0x10FFFF then none
      else some (v, needed)
  if b ≤ 0xC1 then none
  else if b < 0xE0 then checked 1 0x80 (b % 32)
  else if b < 0xF0 then checked 2 0x800 (b % 16)
  else if b < 0xF5 then checked 3 0x10000 (b % 8)
  else none

/-- The decoding loop of Qt 5's `QUtf8::convertToUnicode`: an ASCII byte is its character, a
well-formed sequence its code point, and every byte that starts no well-formed sequence
becomes U+FFFD on its own. The first argument bounds the number of steps. -/
def decodeUtf8 : Nat → List Nat → List Char
  | 0, _ => []
  | _ + 1, [] => []
  | fuel + 1, b :: src =>
    if b < 0x80 then Char.ofNat b :: decodeUtf8 fuel src
    else
      match decodeSequence b src with
      | some (uc, taken) => Char.ofNat uc :: decodeUtf8 fuel (src.drop taken)
      | none => Char.ofNat 0xFFFD :: decodeUtf8 fuel src

/-- Model of Qt 5's `QString::fromUtf8(const QByteArray &)`: the bytes up to the first zero
byte (`qstrnlen`), without a leading byte order mark, decoded by `decodeUtf8`. The decoding
loses information on every identifier that is not well-formed UTF-8. -/
def fromUtf8 (bytes : List Nat) : List Char :=
  let upToNul := bytes.takeWhile (fun b => b ≠ 0)
  let noMark := if upToNul.take 3 = [0xEF, 0xBB, 0xBF] then upToNul.drop 3 else upToNul
  decodeUtf8 noMark.length noMark

/-- UTF-8 bytes of one code point, as `QString::toUtf8` writes them. -/
def utf8Bytes (c : Char) : List Nat :=
  let v := c.toNat
  if v < 0x80 then [v]
  else if v < 0x800 then [0xC0 + v / 64, 0x80 + v % 64]
  else if v < 0x10000 then [0xE0 + v / 4096, 0x80 + v / 64 % 64, 0x80 + v % 64]
  else [0xF0 + v / 262144, 0x80 + v / 4096 % 64, 0x80 + v / 64 % 64, 0x80 + v % 64]

/-- Model of `QString::toUtf8`. -/
def toUtf8 (s : List Char) : List Nat :=
  s.flatMap utf8Bytes

/-- Upper-case hexadecimal digit of a nibble (Qt's `toHexUpper`). -/
def toHexUpper (n : Nat) : Char :=
  "0123456789ABCDEF".toList.getD (n % 16) '0'

/-- Lower-case hexadecimal digit of a nibble (Qt's `toHexLower`). -/
def toHexLower (n : Nat) : Char :=
  "0123456789abcdef".toList.getD (n % 16) '0'

/-- Model of `QByteArray::toHex`: two lower-case digits per byte. -/
def toHex (bytes : List Nat) : List Char :=
  bytes.flatMap (fun b => [toHexLower (b / 16), toHexLower (b % 16)])

/-- The bytes `QByteArray::toPercentEncoding` leaves as they are: ALPHA, DIGIT, `-`, `.`,
`_` and `~`. -/
def isUnreserved (b : Nat) : Bool :=
  (0x61 ≤ b && b ≤ 0x7A) || (0x41 ≤ b && b ≤ 0x5A) || (0x30 ≤ b && b ≤ 0x39)
    || b == 0x2D || b == 0x2E || b == 0x5F || b == 0x7E

/-- One byte under `QByteArray::toPercentEncoding`. -/
def percentEncodeByte (b : Nat) : List Char :=
  if isUnreserved b then [Char.ofNat b]
  else ['%', toHexUpper (b / 16), toHexUpper (b % 16)]

/-- Model of `QUrl::toPercentEncoding(s)`, which is `s.toUtf8().toPercentEncoding()`. -/
def toPercentEncoding (s : List Char) : List Char :=
  (toUtf8 s).flatMap percentEncodeByte

/-- Model of `replace(before, after)` for single characters, on `QByteArray` and `QString`. -/
def replaceChar (before after : Char) (s : List Char) : List Char :=
  s.map (fun c => if c = before then after else c)

/-- The table name `getTable` computes for a type identifier: `"data_%1"` filled with the
percent-encoding of `QString::fromUtf8(typeName)` in which every `%` became `_`. -/
def tableNameFor (typeName : List Nat) : List Char :=
  "data_".toList ++ replaceChar '%' '_' (toPercentEncoding (fromUtf8 typeName))

/-- The bytes of an ASCII string literal, for writing type identifiers in the examples. -/
def ascii (s : String) : List Nat :=
  s.toList.map Char.toNat

/-- The extension of every blob file, `QStringLiteral(".dat")`. -/
def dotDat : List Char :=
  ".dat".toList

/-! ### Where the naming is injective -/

/-- The type identifier survives `QString::fromUtf8`: encoding the decoded text gives the
bytes back. This is the case for well-formed UTF-8 without a zero byte and without a
leading byte order mark. -/
def DecodesLosslessly (typeName : List Nat) : Prop :=
  toUtf8 (fromUtf8 typeName) = typeName

instance (typeName : List Nat) : Decidable (DecodesLosslessly typeName) :=
  inferInstanceAs (Decidable (toUtf8 (fromUtf8 typeName) = typeName))

/-- Whether a character is one of the digits `toHexUpper` writes: `0` to `9`, `A` to `F`. -/
def isUpperHex (c : Char) : Bool :=
  (48 ≤ c.toNat && c.toNat ≤ 57) || (65 ≤ c.toNat && c.toNat ≤ 70)

/-- Value of a hexadecimal digit written by `toHexUpper`. -/
def hexValue (c : Char) : Nat :=
  if c.toNat < 58 then c.toNat - 48 else c.toNat - 55

/-- Whether the bytes start with two upper-case hexadecimal digits that spell a byte the
percent-encoding escapes. -/
def looksEscaped (rest : List Nat) : Bool :=
  isUpperHex (Char.ofNat (rest.getD 0 0)) && isUpperHex (Char.ofNat (rest.getD 1 0))
    && !isUnreserved
      (hexValue (Char.ofNat (rest.getD 0 0)) * 16 + hexValue (Char.ofNat (rest.getD 1 0)))

/-- Whether the identifier has a `_` followed by the two upper-case hexadecimal digits of a
byte that the percent-encoding escapes, as `_3C` for `<`: text that reads like an escaped
byte once `%` is `_`. -/
def hasEscapeLookalike : List Nat → Bool
  | [] => false
  | b :: rest => (b == 0x5F && looksEscaped rest) || hasEscapeLookalike rest

/-- The byte an escape sequence spells when the text after a `_` starts with one. -/
def escapedByte (rest : List Char) : Option Nat :=
  if isUpperHex (rest.getD 0 ' ') && isUpperHex (rest.getD 1 ' ')
      && !isUnreserved (hexValue (rest.getD 0 ' ') * 16 + hexValue (rest.getD 1 ' ')) then
    some (hexValue (rest.getD 0 ' ') * 16 + hexValue (rest.getD 1 ' '))
  else none

/-- Reads back the bytes from the encoded name of an identifier without escape lookalike. -/
def decodeName : List Char → List Nat
  | [] => []
  | c :: rest =>
    if c = '_' then
      match escapedByte rest with
      | some b => b :: decodeName (rest.drop 2)
      | none => c.toNat :: decodeName rest
    else c.toNat :: decodeName rest
termination_by l => l.length
decreasing_by
  all_goals simp_wf
  all_goals omega

/-! ## Data model -/

/-- Identity of one document (`ObjectKey`): type identifier and instance id. -/
structure ObjectKey where
  typeName : List Nat
  id : List Char
  deriving DecidableEq, Repr

/-- A scalar JSON value. The store never looks inside a document, so nested arrays and
objects are left out of the value type. -/
inductive JsonValue where
  | null
  | bool (b : Bool)
  | number (n : Int)
  | string (s : List Char)
  deriving DecidableEq, Repr

/-- A document (`QJsonObject`): the members in key order. `isEmpty` is `[]`. -/
abbrev QJsonObject := List (List Char × JsonValue)

/-- The library functions the store uses and does not define. -/
structure Qt where
  /-- Serialisation, `QJsonDocument(data).toBinaryData()`. -/
  toBinaryData : QJsonObject → List Nat
  /-- Deserialisation, `QJsonDocument::fromBinaryData(bytes)`; `none` when the result is not
  an object. -/
  fromBinaryData : List Nat → Option QJsonObject
  /-- The digest `QCryptographicHash::Sha3_256`. -/
  sha3 : List Nat → List Nat
  /-- Whether the SQL engine's `LIKE` lets a pattern character that is no wildcard match a
  character of the text. -/
  likeEq : Char → Char → Bool

/-- One row of a type table: the columns `Key`, `Version`, `File`, `Checksum`. -/
structure Row where
  key : List Char
  version : Nat
  file : List Char
  checksum : List Char
  deriving DecidableEq, Repr

/-- The SQL database: its tables by name, in the order `database->tables()` lists them. -/
structure Database where
  tables : List (List Char × List Row)
  deriving DecidableEq, Repr

/-- The storage root below `store`: whether `store` exists, the type directories in it, and
the files by directory and file name. -/
structure FileSystem where
  storeExists : Bool
  dirs : List (List Char)
  files : List ((List Char × List Char) × List Nat)
  deriving DecidableEq, Repr

/-- One entry of the object cache with its cost. -/
structure CacheEntry where
  key : ObjectKey
  object : QJsonObject
  cost : Int
  deriving DecidableEq, Repr

/-- Model of `QCache<ObjectKey, QJsonObject>`: the maximum total cost and the entries, most
recently used first. -/
structure QCache where
  mx : Int
  entries : List CacheEntry
  deriving DecidableEq, Repr

/-- The signals of a `LocalStore`. -/
inductive Signal where
  | dataChanged (key : ObjectKey) (wasDeleted : Bool)
  | dataCleared (typeName : List Nat)
  | dataResetted
  deriving DecidableEq, Repr

/-- One `LocalStore` instance: its identity (the `this` pointer), its table-name cache, its
object cache and the signals it has raised, oldest first. -/
structure LocalStore where
  self : Nat
  tableNameCache : List (List Nat × List Char)
  dataCache : QCache
  raised : List Signal
  deriving DecidableEq, Repr

/-- The step of an operation that can throw. -/
inductive Step where
  | createTable
  | mkpath
  | transaction
  | query
  | openFile
  | writeFile
  | statement
  | fileCommit
  | removeFile
  | removeDir
  | commit
  | parseJson
  deriving DecidableEq, Repr

/-- The two exceptions of the store: `NoDataException` and `LocalStoreException`, the
latter with the step that threw it in place of its context string. -/
inductive StoreError where
  | noData (key : ObjectKey)
  | localStore (step : Step)
  deriving DecidableEq, Repr

/-- What the environment does during one call: the step it makes fail, if any, and the base
name (uuid digits and generated characters) of the temporary file a `save` would create. -/
structure Env where
  failAt : Option Step
  tempName : List Char
  deriving DecidableEq, Repr

/-- The whole system: database, file system, the handle an operation is called on and
every other handle connected to the emitter. -/
structure System where
  db : Database
  fs : FileSystem
  this : LocalStore
  others : List LocalStore
  deriving DecidableEq, Repr

/-- State after a call together with what the call returned or threw. -/
structure Outcome (α : Type) where
  sys : System
  result : Except StoreError α

instance instDecidableEqExcept {ε α : Type} [DecidableEq ε] [DecidableEq α] :
    DecidableEq (Except ε α) := fun a b =>
  match a, b with
  | .ok x, .ok y => if h : x = y then isTrue (by rw [h]) else isFalse (fun e => h (by cases e; rfl))
  | .error x, .error y =>
    if h : x = y then isTrue (by rw [h]) else isFalse (fun e => h (by cases e; rfl))
  | .ok _, .error _ => isFalse (fun e => by cases e)
  | .error _, .ok _ => isFalse (fun e => by cases e)

/-! ## The SQL statements the store executes -/

namespace Database

/-- Names of the tables, `database->tables()`. -/
def tableNames (db : Database) : List (List Char) :=
  db.tables.map Prod.fst

/-- Rows of a table; `none` when the table does not exist. -/
def rows (db : Database) (table : List Char) : Option (List Row) :=
  db.tables.lookup table

/-- Puts new rows in the place of a table's rows. -/
def setRows (db : Database) (table : List Char) (rs : List Row) : Database :=
  { tables := db.tables.map (fun t => if t.1 = table then (t.1, rs) else t) }

/-- Statement `CREATE TABLE name (...)`: fails when the table exists. -/
def createTable (db : Database) (table : List Char) : Option Database :=
  if table ∈ db.tableNames then none
  else some { tables := db.tables ++ [(table, [])] }

/-- Statement `DROP TABLE name`: fails when the table does not exist. -/
def dropTable (db : Database) (table : List Char) : Option Database :=
  if table ∈ db.tableNames then
    some { tables := db.tables.filter (fun t => t.1 ≠ table) }
  else none

/-- Statement `SELECT ... FROM table WHERE Key = ?`: the matching rows. -/
def selectByKey (db : Database) (table id : List Char) : Option (List Row) :=
  (db.rows table).map (fun rs => rs.filter (fun r => r.key = id))

/-- Statement `INSERT INTO table (Key, File, Checksum) VALUES(?, ?, ?)`: `Version` takes the
column default 1; fails on a missing table and on a key that exists (`PRIMARY KEY(Key)`). -/
def insertRow (db : Database) (table id file checksum : List Char) : Option Database :=
  match db.rows table with
  | none => none
  | some rs =>
    if rs.any (fun r => r.key = id) then none
    else some (db.setRows table (rs ++ [{ key := id, version := 1, file := file,
                                          checksum := checksum }]))

/-- Statement `UPDATE table SET Checksum = ?, Version = Version + 1 WHERE Key = ?`. -/
def updateRow (db : Database) (table checksum id : List Char) : Option Database :=
  (db.rows table).map (fun rs =>
    db.setRows table (rs.map (fun r =>
      if r.key = id then { r with checksum := checksum, version := r.version + 1 } else r)))

/-- Statement `DELETE FROM table WHERE Key = ?`. -/
def deleteRow (db : Database) (table id : List Char) : Option Database :=
  (db.rows table).map (fun rs => db.setRows table (rs.filter (fun r => r.key ≠ id)))

end Database

/-! ## The file operations the store performs -/

namespace FileSystem

/-- Directory creation `mkpath("store/<table>")`: creates `store` and the type directory
when missing. -/
def mkpath (fs : FileSystem) (table : List Char) : FileSystem :=
  { fs with storeExists := true,
            dirs := if table ∈ fs.dirs then fs.dirs else fs.dirs ++ [table] }

/-- Content of `store/<table>/<name>`; `none` when there is no such file. -/
def read (fs : FileSystem) (table name : List Char) : Option (List Nat) :=
  fs.files.lookup (table, name)

/-- Whether `store/<table>/<name>` exists. -/
def fileExists (fs : FileSystem) (table name : List Char) : Bool :=
  (fs.read table name).isSome

/-- Puts a file with the given content at `store/<table>/<name>`, in the place of the file
of that name when there is one: what a committed `QSaveFile` and a kept `QTemporaryFile`
leave behind. -/
def write (fs : FileSystem) (table name : List Char) (content : List Nat) : FileSystem :=
  if fs.fileExists table name then
    { fs with files := fs.files.map (fun f => if f.1 = (table, name) then (f.1, content) else f) }
  else { fs with files := fs.files ++ [((table, name), content)] }

/-- File removal `QFile::remove`: `none` when there is no such file. -/
def remove (fs : FileSystem) (table name : List Char) : Option FileSystem :=
  if fs.fileExists table name then
    some { fs with files := fs.files.filter (fun f => f.1 ≠ (table, name)) }
  else none

/-- Recursive removal of `store/<table>`. -/
def removeDir (fs : FileSystem) (table : List Char) : FileSystem :=
  { fs with dirs := fs.dirs.filter (fun d => d ≠ table),
            files := fs.files.filter (fun f => f.1.1 ≠ table) }

/-- Recursive removal of `store`. -/
def removeStore (_fs : FileSystem) : FileSystem :=
  { storeExists := false, dirs := [], files := [] }

end FileSystem

/-- Model of `QFileInfo::completeBaseName` on a file name: everything before the last `.`,
the whole name when it has none. -/
def completeBaseName (name : List Char) : List Char :=
  if '.' ∈ name then (name.reverse.dropWhile (fun c => c ≠ '.')).drop 1 |>.reverse
  else name

/-! ## The object cache -/

namespace QCache

/-- Sum of the costs of the entries (`total`). -/
def total (c : QCache) : Int :=
  (c.entries.map CacheEntry.cost).sum

/-- Membership test `QCache::contains`. -/
def contains (c : QCache) (key : ObjectKey) : Bool :=
  c.entries.any (fun e => e.key = key)

/-- The cached object without the relinking of `QCache::object`. -/
def peek (c : QCache) (key : ObjectKey) : Option QJsonObject :=
  (c.entries.find? (fun e => e.key = key)).map CacheEntry.object

/-- Lookup `QCache::object`: the entry becomes the most recently used one. -/
def object (c : QCache) (key : ObjectKey) : QCache × Option QJsonObject :=
  match c.entries.find? (fun e => e.key = key) with
  | none => (c, none)
  | some e => ({ c with entries := e :: c.entries.filter (fun x => x.key ≠ key) }, some e.object)

/-- Removal `QCache::remove`. -/
def remove (c : QCache) (key : ObjectKey) : QCache :=
  { c with entries := c.entries.filter (fun e => e.key ≠ key) }

/-- The loop of `QCache::trim` on the entries listed least recently used first: drops
entries while the total cost exceeds `m`. -/
def trimOldest (m : Int) : List CacheEntry → List CacheEntry
  | [] => []
  | e :: rest =>
    if ((e :: rest).map CacheEntry.cost).sum > m then trimOldest m rest else e :: rest

/-- Eviction `QCache::trim(m)`. -/
def trim (c : QCache) (m : Int) : QCache :=
  { c with entries := (trimOldest m c.entries.reverse).reverse }

/-- Insertion `QCache::insert(key, object, cost)`: the old entry of the key goes first; an
object whose cost exceeds the maximum is not stored. -/
def insert (c : QCache) (key : ObjectKey) (obj : QJsonObject) (cost : Int) : QCache :=
  let c1 := c.remove key
  if cost > c1.mx then c1
  else
    let c2 := c1.trim (c1.mx - cost)
    { c2 with entries := { key := key, object := obj, cost := cost } :: c2.entries }

/-- Emptying `QCache::clear`. -/
def clear (c : QCache) : QCache :=
  { c with entries := [] }

/-- The keys `QCache::keys`. -/
def keys (c : QCache) : List ObjectKey :=
  c.entries.map CacheEntry.key

/-- Capacity change `QCache::setMaxCost`. -/
def setMaxCost (c : QCache) (m : Int) : QCache :=
  ({ c with mx := m } : QCache).trim m

end QCache

/-! ## The table-name cache (`QHash<QByteArray, QString>`) -/

/-- Membership test `QHash::contains`. -/
def hashContains (m : List (List Nat × List Char)) (k : List Nat) : Bool :=
  (m.lookup k).isSome

/-- Lookup `QHash::value`: the default-constructed (empty) string when the key is absent. -/
def hashValue (m : List (List Nat × List Char)) (k : List Nat) : List Char :=
  (m.lookup k).getD []

/-- Insertion `QHash::insert`: replaces the value of a key that is present. -/
def hashInsert (m : List (List Nat × List Char)) (k : List Nat) (v : List Char) :
    List (List Nat × List Char) :=
  (k, v) :: m.filter (fun e => e.1 ≠ k)

/-- Removal `QHash::remove`. -/
def hashRemove (m : List (List Nat × List Char)) (k : List Nat) :
    List (List Nat × List Char) :=
  m.filter (fun e => e.1 ≠ k)

/-! ## SQL `LIKE` -/

/-- Whether a predicate holds of some suffix of the text, the text itself included. -/
def anySuffix (f : List Char → Bool) : List Char → Bool
  | [] => f []
  | c :: s => f (c :: s) || anySuffix f s

/-- The SQL operator `text LIKE pattern`: `%` matches any run of characters, `_` any single
character, every other pattern character the characters `likeEq` accepts for it. -/
def likeMatch (likeEq : Char → Char → Bool) : List Char → List Char → Bool
  | [], s => s.isEmpty
  | c :: p, s =>
    if c = '%' then anySuffix (likeMatch likeEq p) s
    else
      match s with
      | [] => false
      | d :: s' => (c = '_' || likeEq c d) && likeMatch likeEq p s'

/-! ## The slots connected to the emitter -/

/-- Slot `LocalStore::onDataChange(origin, key, data, size)`. -/
def onDataChange (origin : Nat) (key : ObjectKey) (data : QJsonObject) (size : Int)
    (this : LocalStore) : LocalStore :=
  if origin ≠ this.self then
    let cache :=
      if this.dataCache.contains key then
        if data.isEmpty then this.dataCache.remove key
        else this.dataCache.insert key data size
      else this.dataCache
    { this with dataCache := cache,
                raised := this.raised ++ [Signal.dataChanged key data.isEmpty] }
  else this

/-- Slot `LocalStore::onDataReset(origin, typeName)`; `none` is the null type identifier
that `reset()` sends. -/
def onDataReset (origin : Nat) (typeName : Option (List Nat)) (this : LocalStore) :
    LocalStore :=
  match typeName with
  | none =>
    let this1 := { this with tableNameCache := [], dataCache := this.dataCache.clear }
    if origin ≠ this.self then { this1 with raised := this1.raised ++ [Signal.dataResetted] }
    else this1
  | some t =>
    let this1 :=
      { this with tableNameCache := hashRemove this.tableNameCache t,
                  dataCache := { this.dataCache with
                    entries := this.dataCache.entries.filter (fun e => e.key.typeName ≠ t) } }
    if origin ≠ this.self then { this1 with raised := this1.raised ++ [Signal.dataCleared t] }
    else this1

/-! ## The private helpers of `LocalStore` -/

namespace LocalStore

/-- Helper `LocalStore::getTable(typeName, allowCreate)`: the table name of a type, the
empty string when the table does not exist and may not be created. -/
def getTable (db : Database) (this : LocalStore) (typeName : List Nat) (allowCreate : Bool)
    (env : Env) : Database × LocalStore × Except StoreError (List Char) :=
  if hashContains this.tableNameCache typeName then
    (db, this, .ok (hashValue this.tableNameCache typeName))
  else
    let tableName := tableNameFor typeName
    if tableName ∈ db.tableNames then
      let this1 := { this with tableNameCache := hashInsert this.tableNameCache typeName tableName }
      (db, this1, .ok (hashValue this1.tableNameCache typeName))
    else if allowCreate then
      if env.failAt = some Step.createTable then (db, this, .error (.localStore .createTable))
      else
        match db.createTable tableName with
        | none => (db, this, .error (.localStore .createTable))
        | some db1 =>
          let this1 :=
            { this with tableNameCache := hashInsert this.tableNameCache typeName tableName }
          (db1, this1, .ok (hashValue this1.tableNameCache typeName))
    else (db, this, .ok (hashValue this.tableNameCache typeName))

/-- Helper `LocalStore::typeDirectory(tableName, key)`: creates and enters
`store/<tableName>`. -/
def typeDirectory (fs : FileSystem) (tableName : List Char) (env : Env) :
    Except StoreError FileSystem :=
  if env.failAt = some Step.mkpath then .error (.localStore .mkpath)
  else .ok (fs.mkpath tableName)

/-- Helper `LocalStore::readJson(tableName, fileName, key, costs)`: the document in
`<fileName>.dat` and the size of the file. -/
def readJson (qt : Qt) (fs : FileSystem) (tableName fileName : List Char) (env : Env) :
    FileSystem × Except StoreError (QJsonObject × Int) :=
  match typeDirectory fs tableName env with
  | .error e => (fs, .error e)
  | .ok fs1 =>
    if env.failAt = some Step.openFile then (fs1, .error (.localStore .openFile))
    else
      match fs1.read tableName (fileName ++ dotDat) with
      | none => (fs1, .error (.localStore .openFile))
      | some bytes =>
        match qt.fromBinaryData bytes with
        | none => (fs1, .error (.localStore .parseJson))
        | some json => (fs1, .ok (json, (bytes.length : Int)))

/-- The `while(query.next())` loop of `loadAll` and `find`: reads the document of every row
and puts it in the cache. -/
def readRows (qt : Qt) (typeName : List Nat) (table : List Char) (env : Env) :
    List Row → FileSystem → QCache → FileSystem × QCache × Except StoreError (List QJsonObject)
  | [], fs, cache => (fs, cache, .ok [])
  | r :: rs, fs, cache =>
    match readJson qt fs table r.file env with
    | (fs1, .error e) => (fs1, cache, .error e)
    | (fs1, .ok (json, size)) =>
      match readRows qt typeName table env rs fs1
          (cache.insert { typeName := typeName, id := r.key } json size) with
      | (fs2, cache2, .error e) => (fs2, cache2, .error e)
      | (fs2, cache2, .ok docs) => (fs2, cache2, .ok (json :: docs))

/-! ## The public operations of `LocalStore` -/

/-- Model of `QVariant::toInt` on a 64 bit integer: the low 32 bits, read as a signed
`int`. -/
def variantToInt (n : Nat) : Int :=
  ((n + 2 ^ 31) % 2 ^ 32 : Nat) - 2 ^ 31

/-- The implicit conversion of an `int` to the return type `quint64`. -/
def intToQuint64 (i : Int) : Nat :=
  (i % 2 ^ 64).toNat

/-- Operation `LocalStore::count(typeName)`: the value of `SELECT Count(*)`, taken through
`toInt()` and returned as `quint64`. -/
def count (sys : System) (typeName : List Nat) (env : Env) : Outcome Nat :=
  match getTable sys.db sys.this typeName false env with
  | (db0, this0, .error e) => ⟨{ sys with db := db0, this := this0 }, .error e⟩
  | (db0, this0, .ok table) =>
    let sys0 := { sys with db := db0, this := this0 }
    if table.isEmpty then ⟨sys0, .ok 0⟩
    else if env.failAt = some Step.query then ⟨sys0, .error (.localStore .query)⟩
    else
      match db0.rows table with
      | none => ⟨sys0, .error (.localStore .query)⟩
      | some rs => ⟨sys0, .ok (intToQuint64 (variantToInt rs.length))⟩

/-- Operation `LocalStore::keys(typeName)`. -/
def keys (sys : System) (typeName : List Nat) (env : Env) : Outcome (List (List Char)) :=
  match getTable sys.db sys.this typeName false env with
  | (db0, this0, .error e) => ⟨{ sys with db := db0, this := this0 }, .error e⟩
  | (db0, this0, .ok table) =>
    let sys0 := { sys with db := db0, this := this0 }
    if table.isEmpty then ⟨sys0, .ok []⟩
    else if env.failAt = some Step.query then ⟨sys0, .error (.localStore .query)⟩
    else
      match db0.rows table with
      | none => ⟨sys0, .error (.localStore .query)⟩
      | some rs => ⟨sys0, .ok (rs.map Row.key)⟩

/-- Operation `LocalStore::loadAll(typeName)`. -/
def loadAll (qt : Qt) (sys : System) (typeName : List Nat) (env : Env) :
    Outcome (List QJsonObject) :=
  match getTable sys.db sys.this typeName false env with
  | (db0, this0, .error e) => ⟨{ sys with db := db0, this := this0 }, .error e⟩
  | (db0, this0, .ok table) =>
    let sys0 := { sys with db := db0, this := this0 }
    if table.isEmpty then ⟨sys0, .ok []⟩
    else if env.failAt = some Step.query then ⟨sys0, .error (.localStore .query)⟩
    else
      match db0.rows table with
      | none => ⟨sys0, .error (.localStore .query)⟩
      | some rs =>
        match readRows qt typeName table env rs sys.fs this0.dataCache with
        | (fs1, cache1, res) =>
          ⟨{ sys0 with fs := fs1, this := { this0 with dataCache := cache1 } }, res⟩

/-- Operation `LocalStore::load(key)`. -/
def load (qt : Qt) (sys : System) (key : ObjectKey) (env : Env) : Outcome QJsonObject :=
  match sys.this.dataCache.object key with
  | (cache0, some data) => ⟨{ sys with this := { sys.this with dataCache := cache0 } }, .ok data⟩
  | (_, none) =>
    match getTable sys.db sys.this key.typeName false env with
    | (db0, this0, .error e) => ⟨{ sys with db := db0, this := this0 }, .error e⟩
    | (db0, this0, .ok table) =>
      let sys0 := { sys with db := db0, this := this0 }
      if table.isEmpty then ⟨sys0, .error (.noData key)⟩
      else if env.failAt = some Step.query then ⟨sys0, .error (.localStore .query)⟩
      else
        match db0.selectByKey table key.id with
        | none => ⟨sys0, .error (.localStore .query)⟩
        | some found =>
          match found.head? with
          | some row =>
            match readJson qt sys.fs table row.file env with
            | (fs1, .error e) => ⟨{ sys0 with fs := fs1 }, .error e⟩
            | (fs1, .ok (json, size)) =>
              ⟨{ sys0 with fs := fs1,
                           this := { this0 with dataCache := this0.dataCache.insert key json size } },
                .ok json⟩
          | none => ⟨sys0, .error (.noData key)⟩

/-- The `try` block of `save` up to and including the two commits: on the left the file
system it leaves, on the right the exception or the database to keep with the size of the
written file. The file device is a `QSaveFile` on the file of the existing row, or a
`QTemporaryFile` under a generated name; a device that is not committed leaves no file. -/
def saveTransaction (qt : Qt) (db : Database) (fs : FileSystem) (table : List Char)
    (key : ObjectKey) (data : QJsonObject) (env : Env) :
    FileSystem × Except StoreError (Database × Int) :=
  if env.failAt = some Step.query then (fs, .error (.localStore .query))
  else
    match db.selectByKey table key.id with
    | none => (fs, .error (.localStore .query))
    | some found =>
      let bytes := qt.toBinaryData data
      let checksum := toHex (qt.sha3 bytes)
      match found.head? with
      | some row =>
        let name := row.file ++ dotDat
        if env.failAt = some Step.openFile then (fs, .error (.localStore .openFile))
        else if env.failAt = some Step.writeFile then (fs, .error (.localStore .writeFile))
        else if env.failAt = some Step.statement then (fs, .error (.localStore .statement))
        else
          match db.updateRow table checksum key.id with
          | none => (fs, .error (.localStore .statement))
          | some db1 =>
            if env.failAt = some Step.fileCommit then (fs, .error (.localStore .fileCommit))
            else
              let fs1 := fs.write table name bytes
              if env.failAt = some Step.commit then (fs1, .error (.localStore .commit))
              else (fs1, .ok (db1, (bytes.length : Int)))
      | none =>
        let name := env.tempName ++ dotDat
        if env.failAt = some Step.openFile || fs.fileExists table name then
          (fs, .error (.localStore .openFile))
        else if env.failAt = some Step.writeFile then (fs, .error (.localStore .writeFile))
        else if env.failAt = some Step.statement then (fs, .error (.localStore .statement))
        else
          match db.insertRow table key.id (completeBaseName name) checksum with
          | none => (fs, .error (.localStore .statement))
          | some db1 =>
            if env.failAt = some Step.fileCommit then (fs, .error (.localStore .fileCommit))
            else
              let fs1 := fs.write table name bytes
              if env.failAt = some Step.commit then (fs1, .error (.localStore .commit))
              else (fs1, .ok (db1, (bytes.length : Int)))

/-- Operation `LocalStore::save(key, data)`. An exception inside the `try` block rolls the
transaction back: the database is the one from before `database->transaction()`. -/
def save (qt : Qt) (sys : System) (key : ObjectKey) (data : QJsonObject) (env : Env) :
    Outcome Unit :=
  match getTable sys.db sys.this key.typeName true env with
  | (db0, this0, .error e) => ⟨{ sys with db := db0, this := this0 }, .error e⟩
  | (db0, this0, .ok table) =>
    match typeDirectory sys.fs table env with
    | .error e => ⟨{ sys with db := db0, this := this0 }, .error e⟩
    | .ok fs0 =>
      if env.failAt = some Step.transaction then
        ⟨{ sys with db := db0, fs := fs0, this := this0 }, .error (.localStore .transaction)⟩
      else
        match saveTransaction qt db0 fs0 table key data env with
        | (fs1, .error e) => ⟨{ sys with db := db0, fs := fs1, this := this0 }, .error e⟩
        | (fs1, .ok (db1, size)) =>
          let this1 := { this0 with dataCache := this0.dataCache.insert key data size }
          let this2 := onDataChange this1.self key data size this1
          let others1 := sys.others.map (onDataChange this1.self key data size)
          ⟨{ db := db1, fs := fs1,
             this := { this2 with raised := this2.raised ++ [Signal.dataChanged key false] },
             others := others1 }, .ok ()⟩

/-- The `try` block of `remove` up to and including the commit: the file system it leaves
and the exception, or the database to keep and whether a row was deleted. -/
def removeTransaction (db : Database) (fs : FileSystem) (table : List Char) (key : ObjectKey)
    (env : Env) : FileSystem × Except StoreError (Database × Bool) :=
  if env.failAt = some Step.query then (fs, .error (.localStore .query))
  else
    match db.selectByKey table key.id with
    | none => (fs, .error (.localStore .query))
    | some found =>
      match found.head? with
      | some row =>
        if env.failAt = some Step.statement then (fs, .error (.localStore .statement))
        else
          match db.deleteRow table key.id with
          | none => (fs, .error (.localStore .statement))
          | some db1 =>
            match typeDirectory fs table env with
            | .error e => (fs, .error e)
            | .ok fs1 =>
              if env.failAt = some Step.removeFile then (fs1, .error (.localStore .removeFile))
              else
                match fs1.remove table (row.file ++ dotDat) with
                | none => (fs1, .error (.localStore .removeFile))
                | some fs2 =>
                  if env.failAt = some Step.commit then (fs2, .error (.localStore .commit))
                  else (fs2, .ok (db1, true))
      | none =>
        if env.failAt = some Step.commit then (fs, .error (.localStore .commit))
        else (fs, .ok (db, false))

/-- Operation `LocalStore::remove(key)`. -/
def remove (sys : System) (key : ObjectKey) (env : Env) : Outcome Bool :=
  match getTable sys.db sys.this key.typeName false env with
  | (db0, this0, .error e) => ⟨{ sys with db := db0, this := this0 }, .error e⟩
  | (db0, this0, .ok table) =>
    let sys0 := { sys with db := db0, this := this0 }
    if table.isEmpty then ⟨sys0, .ok false⟩
    else if env.failAt = some Step.transaction then ⟨sys0, .error (.localStore .transaction)⟩
    else
      match removeTransaction db0 sys.fs table key env with
      | (fs1, .error e) => ⟨{ sys0 with fs := fs1 }, .error e⟩
      | (fs1, .ok (db1, false)) => ⟨{ sys0 with db := db1, fs := fs1 }, .ok false⟩
      | (fs1, .ok (db1, true)) =>
        let this1 := { this0 with dataCache := this0.dataCache.remove key }
        let this2 := onDataChange this1.self key [] 0 this1
        let others1 := sys.others.map (onDataChange this1.self key [] 0)
        ⟨{ db := db1, fs := fs1,
           this := { this2 with raised := this2.raised ++ [Signal.dataChanged key true] },
           others := others1 }, .ok true⟩

/-- Operation `LocalStore::find(typeName, query)`. -/
def find (qt : Qt) (sys : System) (typeName : List Nat) (query : List Char) (env : Env) :
    Outcome (List QJsonObject) :=
  match getTable sys.db sys.this typeName false env with
  | (db0, this0, .error e) => ⟨{ sys with db := db0, this := this0 }, .error e⟩
  | (db0, this0, .ok table) =>
    let sys0 := { sys with db := db0, this := this0 }
    if table.isEmpty then ⟨sys0, .ok []⟩
    else
      let searchQuery := replaceChar '?' '_' (replaceChar '*' '%' query)
      if env.failAt = some Step.query then ⟨sys0, .error (.localStore .query)⟩
      else
        match db0.rows table with
        | none => ⟨sys0, .error (.localStore .query)⟩
        | some rs =>
          match readRows qt typeName table env
              (rs.filter (fun r => likeMatch qt.likeEq searchQuery r.key)) sys.fs
              this0.dataCache with
          | (fs1, cache1, res) =>
            ⟨{ sys0 with fs := fs1, this := { this0 with dataCache := cache1 } }, res⟩

/-- Operation `LocalStore::clear(typeName)`. The `DROP TABLE` runs outside a transaction. -/
def clear (sys : System) (typeName : List Nat) (env : Env) : Outcome Unit :=
  match getTable sys.db sys.this typeName false env with
  | (db0, this0, .error e) => ⟨{ sys with db := db0, this := this0 }, .error e⟩
  | (db0, this0, .ok table) =>
    let sys0 := { sys with db := db0, this := this0 }
    if table.isEmpty then ⟨sys0, .ok ()⟩
    else if env.failAt = some Step.statement then ⟨sys0, .error (.localStore .statement)⟩
    else
      match db0.dropTable table with
      | none => ⟨sys0, .error (.localStore .statement)⟩
      | some db1 =>
        match typeDirectory sys.fs table env with
        | .error e => ⟨{ sys0 with db := db1 }, .error e⟩
        | .ok fs1 =>
          if env.failAt = some Step.removeDir then
            ⟨{ sys0 with db := db1, fs := fs1 }, .error (.localStore .removeDir)⟩
          else
            let this1 := onDataReset this0.self (some typeName) this0
            let others1 := sys.others.map (onDataReset this0.self (some typeName))
            ⟨{ db := db1, fs := fs1.removeDir table,
               this := { this1 with raised := this1.raised ++ [Signal.dataCleared typeName] },
               others := others1 }, .ok ()⟩

/-- The `foreach` loop of `reset`: drops every table whose name starts with `data_`. -/
def dropManaged (env : Env) : List (List Char) → Database → Except StoreError Database
  | [], db => .ok db
  | t :: ts, db =>
    if "data_".toList.isPrefixOf t then
      if env.failAt = some Step.statement then .error (.localStore .statement)
      else
        match db.dropTable t with
        | none => .error (.localStore .statement)
        | some db1 => dropManaged env ts db1
    else dropManaged env ts db

/-- Modelled from the spec: the type identifier that `reset()` sends through the emitter. The
call is `emitter->dataResetted(this)`, and the declaration of that signal with its default
argument is not among the sources; by the specification a full reset event names no type
but all of them, which is the null identifier `onDataReset` tests for. -/
def resetTypeName : Option (List Nat) :=
  none

/-- Operation `LocalStore::reset()`. A failure of the directory removal comes after the
commit and leaves the tables dropped. -/
def reset (sys : System) (env : Env) : Outcome Unit :=
  if env.failAt = some Step.transaction then ⟨sys, .error (.localStore .transaction)⟩
  else
    match dropManaged env sys.db.tableNames sys.db with
    | .error e => ⟨sys, .error e⟩
    | .ok db1 =>
      if env.failAt = some Step.commit then ⟨sys, .error (.localStore .commit)⟩
      else if sys.fs.storeExists && env.failAt = some Step.removeDir then
        ⟨{ sys with db := db1 }, .error (.localStore .removeDir)⟩
      else
        let fs1 := if sys.fs.storeExists then sys.fs.removeStore else sys.fs
        let this1 := onDataReset sys.this.self resetTypeName sys.this
        let others1 := sys.others.map (onDataReset sys.this.self resetTypeName)
        ⟨{ db := db1, fs := fs1,
           this := { this1 with raised := this1.raised ++ [Signal.dataResetted] },
           others := others1 }, .ok ()⟩

/-- Getter `LocalStore::cacheSize()`. -/
def cacheSize (this : LocalStore) : Int :=
  this.dataCache.mx

/-- Setter `LocalStore::setCacheSize(cacheSize)`. -/
def setCacheSize (this : LocalStore) (size : Int) : LocalStore :=
  { this with dataCache := this.dataCache.setMaxCost size }

end LocalStore

/-! ## Predicates on states, used to state the properties -/

/-- The environment in which nothing fails. -/
def Env.calm : Env :=
  { failAt := none, tempName := [] }

/-- Every entry of the table-name cache of a handle holds the name `getTable` computes for
its type: the only values `getTable` ever inserts. -/
def LocalStore.NamesValid (this : LocalStore) : Prop :=
  ∀ e ∈ this.tableNameCache, e.2 = tableNameFor e.1

instance (this : LocalStore) : Decidable this.NamesValid :=
  inferInstanceAs (Decidable (∀ e ∈ this.tableNameCache, e.2 = tableNameFor e.1))

/-- The index record of a key: the first row with its id in the table of its type. -/
def Database.record (db : Database) (key : ObjectKey) : Option Row :=
  (db.rows (tableNameFor key.typeName)).bind (fun rs => rs.find? (fun r => r.key = key.id))

/-- The `Version` column of the index record of a key. -/
def Database.versionOf (db : Database) (key : ObjectKey) : Option Nat :=
  (db.record key).map Row.version

/-- The keys of every table are distinct, as `PRIMARY KEY(Key)` demands. -/
def Database.KeysUnique (db : Database) : Prop :=
  ∀ t ∈ db.tables, (t.2.map Row.key).Nodup

instance (db : Database) : Decidable db.KeysUnique :=
  inferInstanceAs (Decidable (∀ t ∈ db.tables, (t.2.map Row.key).Nodup))

/-- Distinct rows of a table reference distinct blob files. -/
def Database.FilesUnique (db : Database) : Prop :=
  ∀ t ∈ db.tables, (t.2.map Row.file).Nodup

instance (db : Database) : Decidable db.FilesUnique :=
  inferInstanceAs (Decidable (∀ t ∈ db.tables, (t.2.map Row.file).Nodup))

/-- Table names are distinct, and within a table so are the keys and the file references:
what the SQL engine and the fresh names of the temporary files maintain. -/
def Database.WellFormed (db : Database) : Prop :=
  db.tableNames.Nodup ∧ db.KeysUnique ∧ db.FilesUnique

instance (db : Database) : Decidable db.WellFormed :=
  inferInstanceAs (Decidable (db.tableNames.Nodup ∧ db.KeysUnique ∧ db.FilesUnique))

/-- The row references a blob file that exists in the directory of its table. -/
def Row.BlobExists (fs : FileSystem) (table : List Char) (r : Row) : Prop :=
  fs.fileExists table (r.file ++ dotDat) = true

instance (fs : FileSystem) (table : List Char) (r : Row) : Decidable (r.BlobExists fs table) :=
  inferInstanceAs (Decidable (fs.fileExists table (r.file ++ dotDat) = true))

/-- The row references a blob file that exists and whose digest, in hexadecimal, is its
`Checksum`. -/
def Row.BlobMatches (qt : Qt) (fs : FileSystem) (table : List Char) (r : Row) : Prop :=
  (fs.read table (r.file ++ dotDat)).map (fun content => toHex (qt.sha3 content))
    = some r.checksum

instance (qt : Qt) (fs : FileSystem) (table : List Char) (r : Row) :
    Decidable (r.BlobMatches qt fs table) :=
  inferInstanceAs (Decidable (_ = some r.checksum))

/-- Every index record references an existing blob file whose digest equals its checksum. -/
def Consistent (qt : Qt) (db : Database) (fs : FileSystem) : Prop :=
  ∀ t ∈ db.tables, ∀ r ∈ t.2, r.BlobMatches qt fs t.1

instance (qt : Qt) (db : Database) (fs : FileSystem) : Decidable (Consistent qt db fs) :=
  inferInstanceAs (Decidable (∀ t ∈ db.tables, ∀ r ∈ t.2, r.BlobMatches qt fs t.1))

/-- A file of the file system that no index record references. -/
def Unreferenced (db : Database) (file : (List Char × List Char) × List Nat) : Prop :=
  ∀ t ∈ db.tables, ∀ r ∈ t.2, (t.1, r.file ++ dotDat) ≠ file.1

instance (db : Database) (file : (List Char × List Char) × List Nat) :
    Decidable (Unreferenced db file) :=
  inferInstanceAs (Decidable (∀ t ∈ db.tables, ∀ r ∈ t.2, (t.1, r.file ++ dotDat) ≠ file.1))

/-- The document stored for a row: its blob file, deserialised. -/
def storedDocument (qt : Qt) (fs : FileSystem) (table : List Char) (r : Row) :
    Option QJsonObject :=
  (fs.read table (r.file ++ dotDat)).bind qt.fromBinaryData

/-- Glob matching as the specification words it: `*` stands for any run of characters, `?`
for exactly one character, every other character for itself. -/
def globMatch : List Char → List Char → Bool
  | [], s => s.isEmpty
  | c :: p, s =>
    if c = '*' then anySuffix (globMatch p) s
    else
      match s with
      | [] => false
      | d :: s' => (c = '?' || c = d) && globMatch p s'

/-- The matching `find` performs, in the words of a glob: `*` and `%` stand for any run of
characters, `?` and `_` for exactly one character, every other character for the characters
the `LIKE` comparison of the SQL engine accepts for it. -/
def globLikeMatch (likeEq : Char → Char → Bool) : List Char → List Char → Bool
  | [], s => s.isEmpty
  | c :: p, s =>
    if c = '*' ∨ c = '%' then anySuffix (globLikeMatch likeEq p) s
    else
      match s with
      | [] => false
      | d :: s' => (c = '?' || c = '_' || likeEq c d) && globLikeMatch likeEq p s'

/-- The databases a store can reach from `db` through `n` successful `save` calls on `key`.
Each call is made by any handle whose cached table names are the computed ones, on the
database the step before left, whatever the files and the caches are by then. Between the
calls the database may change in any way that leaves the index record of `key` as it is,
as reads and calls on other records do; a `remove`, `clear` or `reset` that takes the
record away does not. -/
inductive SavedTimes (qt : Qt) (key : ObjectKey) : Database → Nat → Database → Prop where
  | start (db : Database) : SavedTimes qt key db 0 db
  | save (db : Database) (n : Nat) (sys : System) (data : QJsonObject) (env : Env) :
      SavedTimes qt key db n sys.db → sys.this.NamesValid →
      (LocalStore.save qt sys key data env).result = .ok () →
      SavedTimes qt key db (n + 1) (LocalStore.save qt sys key data env).sys.db
  | other (db db1 db2 : Database) (n : Nat) :
      SavedTimes qt key db n db1 → db2.record key = db1.record key →
      SavedTimes qt key db n db2

/-! ## A concrete instance of the library functions and small systems, for the examples -/

/-- A toy serialisation for the examples: a four byte tag, then for every member the length
of its name, the name, a tag for the kind of value and the value. -/
def demoToBinaryData (data : QJsonObject) : List Nat :=
  [113, 98, 106, 115] ++ data.flatMap (fun m =>
    (m.1.length :: m.1.map Char.toNat) ++
      (match m.2 with
       | .null => [0]
       | .bool b => [1, if b then 1 else 0]
       | .number n => [2, if n < 0 then 1 else 0, n.natAbs]
       | .string s => 3 :: s.length :: s.map Char.toNat))

/-- Reads the members back, at most `fuel` of them. -/
def demoReadMembers : Nat → List Nat → Option QJsonObject
  | _, [] => some []
  | 0, _ :: _ => none
  | fuel + 1, n :: rest =>
    let name := (rest.take n).map Char.ofNat
    match rest.drop n with
    | 0 :: more => (demoReadMembers fuel more).map (fun ms => (name, JsonValue.null) :: ms)
    | 1 :: b :: more =>
      (demoReadMembers fuel more).map (fun ms => (name, JsonValue.bool (b == 1)) :: ms)
    | 2 :: s :: v :: more =>
      (demoReadMembers fuel more).map (fun ms =>
        (name, JsonValue.number (if s = 1 then -(v : Int) else (v : Int))) :: ms)
    | 3 :: k :: more =>
      (demoReadMembers fuel (more.drop k)).map (fun ms =>
        (name, JsonValue.string ((more.take k).map Char.ofNat)) :: ms)
    | _ => none

/-- The toy deserialisation: checks the tag and reads the members. -/
def demoFromBinaryData (bytes : List Nat) : Option QJsonObject :=
  match bytes with
  | 113 :: 98 :: 106 :: 115 :: rest => demoReadMembers rest.length rest
  | _ => none

/-- A toy digest for the examples: length and sum of the bytes. -/
def demoDigest (bytes : List Nat) : List Nat :=
  [bytes.length % 256, bytes.sum % 256]

/-- The library functions used in the examples, with a case-sensitive `LIKE`. -/
def demoQt : Qt :=
  { toBinaryData := demoToBinaryData,
    fromBinaryData := demoFromBinaryData,
    sha3 := demoDigest,
    likeEq := fun a b => a = b }

/-- A handle with empty caches. -/
def freshHandle (self : Nat) (cacheSize : Int) : LocalStore :=
  { self := self, tableNameCache := [], dataCache := { mx := cacheSize, entries := [] },
    raised := [] }

/-- An empty store with two handles connected to the emitter. -/
def emptySystem : System :=
  { db := { tables := [] },
    fs := { storeExists := false, dirs := [], files := [] },
    this := freshHandle 1 100,
    others := [freshHandle 2 100] }

/-- A document with one member. -/
def docA : QJsonObject :=
  [("n".toList, JsonValue.number 1)]

/-- Another document with one member. -/
def docB : QJsonObject :=
  [("n".toList, JsonValue.number 2), ("s".toList, JsonValue.string "x".toList)]

/-- The key used in the examples. -/
def keyK : ObjectKey :=
  { typeName := ascii "T", id := "k".toList }

/-- An environment in which the given step fails. -/
def envFail (step : Step) (name : String) : Env :=
  { failAt := some step, tempName := name.toList }

/-- An environment in which nothing fails and the temporary file gets the given name. -/
def envTemp (name : String) : Env :=
  { failAt := none, tempName := name.toList }

/-- The store after the first handle saved `docA` under `keyK`. -/
def savedOnce : System :=
  (LocalStore.save demoQt emptySystem keyK docA (envTemp "f1")).sys

/-- The store after the first handle saved `docA` under the id `abc` of type `T`. -/
def savedAbc : System :=
  (LocalStore.save demoQt emptySystem { typeName := ascii "T", id := "abc".toList } docA
    (envTemp "f1")).sys

/-- A third document, as large as `docA`. -/
def docC : QJsonObject :=
  [("n".toList, JsonValue.number 7)]

/-- A second handle, of capacity 10, that has `docA` cached under `keyK`. -/
def secondHandle : LocalStore :=
  { self := 2, tableNameCache := [],
    dataCache := { mx := 10, entries := [{ key := keyK, object := docA, cost := 9 }] },
    raised := [] }

/-- The store of `savedOnce` with `secondHandle` as the other handle. -/
def twoHandles : System :=
  { savedOnce with others := [secondHandle] }

/-- The store after `keyK` was saved twice: its record has version 2. -/
def savedTwice : System :=
  (LocalStore.save demoQt savedOnce keyK docB (envTemp "f2")).sys

/-- The row of number `i` in a large table: its key is `i + 1` letters `k`, its blob file
`i + 1` letters `f`, its checksum the digest of `docA`. -/
def largeRow (i : Nat) : Row :=
  { key := List.replicate (i + 1) 'k', version := 1, file := List.replicate (i + 1) 'f',
    checksum := toHex (demoDigest (demoToBinaryData docA)) }

/-- A store whose type `T` has 2^31 records, each with its blob file holding `docA`; the
record of `keyK` is the first. -/
def largeStore : System :=
  { db := { tables := [(tableNameFor (ascii "T"), (List.range 2147483648).map largeRow)] },
    fs := { storeExists := true, dirs := [tableNameFor (ascii "T")],
            files := (List.range 2147483648).map (fun i =>
              ((tableNameFor (ascii "T"), (largeRow i).file ++ dotDat),
                demoToBinaryData docA)) },
    this := freshHandle 1 100,
    others := [] }

open LocalStore

/-! ## Lemmas on the naming -/

theorem toNat_ofNat_of_valid (a : Nat) (hv : a.isValidChar) : (Char.ofNat a).toNat = a := by
  unfold Char.ofNat
  simp [hv, Char.ofNatAux, Char.toNat]
  rfl

theorem toNat_lt (c : Char) : c.toNat < 0x110000 := by
  have h := c.valid
  rcases h with h | ⟨_, h⟩
  · have : c.val.toNat < 0xd800 := h
    show c.val.toNat < _
    omega
  · exact h

theorem hexValue_toHexUpper (n : Nat) (h : n < 16) : hexValue (toHexUpper n) = n := by
  interval_cases n <;> rfl

theorem isUpperHex_toHexUpper (n : Nat) (h : n < 16) : isUpperHex (toHexUpper n) = true := by
  interval_cases n <;> rfl

theorem toHexUpper_ne_percent (n : Nat) (h : n < 16) : (toHexUpper n = '%') = False := by
  interval_cases n <;> simp [toHexUpper]

theorem utf8Bytes_lt (c : Char) : ∀ b ∈ utf8Bytes c, b < 256 := by
  have hlt := toNat_lt c
  intro b hb
  unfold utf8Bytes at hb
  simp only [] at hb
  split at hb
  · simp at hb; omega
  · split at hb
    · simp at hb; omega
    · split at hb
      · simp at hb; omega
      · simp at hb; omega

theorem toUtf8_lt (s : List Char) : ∀ b ∈ toUtf8 s, b < 256 := by
  intro b hb
  simp only [toUtf8, List.mem_flatMap] at hb
  obtain ⟨c, _, hbc⟩ := hb
  exact utf8Bytes_lt c b hbc

/-- The encoded name without its prefix, as a function of the bytes of the decoded text. -/
theorem encode_cons_unreserved (b : Nat) (t : List Nat) (hu : isUnreserved b = true) :
    replaceChar '%' '_' ((b :: t).flatMap percentEncodeByte)
      = Char.ofNat b :: replaceChar '%' '_' (t.flatMap percentEncodeByte) := by
  have e : percentEncodeByte b = [Char.ofNat b] := by simp [percentEncodeByte, hu]
  have hb : b < 256 := by
    simp only [isUnreserved, Bool.or_eq_true, Bool.and_eq_true, decide_eq_true_eq,
      beq_iff_eq] at hu
    omega
  have hv : (Char.ofNat b).toNat = b := toNat_ofNat_of_valid b (Or.inl (by omega))
  have h1 : Char.ofNat b ≠ '%' := by
    intro hh
    have := congrArg Char.toNat hh
    rw [hv] at this
    subst this
    simp [isUnreserved] at hu
  simp only [List.flatMap_cons, replaceChar, List.map_append, e, List.map_cons, List.map_nil,
    if_neg h1, List.singleton_append]

theorem encode_cons_escaped (b : Nat) (t : List Nat) (hu : isUnreserved b = false)
    (hb : b < 256) :
    replaceChar '%' '_' ((b :: t).flatMap percentEncodeByte)
      = '_' :: toHexUpper (b / 16) :: toHexUpper (b % 16)
          :: replaceChar '%' '_' (t.flatMap percentEncodeByte) := by
  have e : percentEncodeByte b = ['%', toHexUpper (b / 16), toHexUpper (b % 16)] := by
    simp [percentEncodeByte, hu]
  have hd : b / 16 < 16 := by omega
  have hm : b % 16 < 16 := by omega
  simp only [List.flatMap_cons, replaceChar, List.map_append, e, List.map_cons, List.map_nil,
    if_true, toHexUpper_ne_percent _ hd, toHexUpper_ne_percent _ hm, if_false,
    List.cons_append, List.nil_append]

theorem isUpperHex_underscore : isUpperHex '_' = false := by decide

theorem isUpperHex_space : isUpperHex ' ' = false := by decide

/-- After a literal `_`, the encoded text starts with an escape sequence only when the
bytes after it look like one. -/
theorem escapedByte_encode (rest : List Nat) (hlt : ∀ b ∈ rest, b < 256)
    (h : looksEscaped rest = false) :
    escapedByte (replaceChar '%' '_' (rest.flatMap percentEncodeByte)) = none := by
  have hno : ∀ (x y : Char) (r : List Char), isUpperHex x = false →
      escapedByte (x :: r) = none := by
    intro x y r hx
    simp [escapedByte, hx]
  cases rest with
  | nil => simp [escapedByte, replaceChar, isUpperHex_space]
  | cons a rest =>
    have ha := hlt a (List.mem_cons_self _ _)
    cases hua : isUnreserved a with
    | false =>
      rw [encode_cons_escaped a rest hua ha]
      exact hno '_' '_' _ isUpperHex_underscore
    | true =>
      rw [encode_cons_unreserved a rest hua]
      cases rest with
      | nil =>
        simp [escapedByte, replaceChar, isUpperHex_space]
      | cons c rest =>
        have hc := hlt c (List.mem_cons_of_mem _ (List.mem_cons_self _ _))
        cases huc : isUnreserved c with
        | false =>
          rw [encode_cons_escaped c rest huc hc]
          simp [escapedByte, isUpperHex_underscore]
        | true =>
          rw [encode_cons_unreserved c rest huc]
          simp only [looksEscaped, List.getD_cons_zero, List.getD_cons_succ] at h
          simp only [escapedByte, List.getD_cons_zero, List.getD_cons_succ, h]
          rfl

theorem decodeName_encode (bs : List Nat) (hlt : ∀ b ∈ bs, b < 256)
    (h : hasEscapeLookalike bs = false) :
    decodeName (replaceChar '%' '_' (bs.flatMap percentEncodeByte)) = bs := by
  induction bs with
  | nil => simp [replaceChar, decodeName]
  | cons b t ih =>
    have hb := hlt b (List.mem_cons_self _ _)
    have hlt2 : ∀ x ∈ t, x < 256 := fun x hx => hlt x (List.mem_cons_of_mem _ hx)
    simp only [hasEscapeLookalike, Bool.or_eq_false_iff, Bool.and_eq_false_imp,
      beq_iff_eq] at h
    have ih2 := ih hlt2 h.2
    have hv : (Char.ofNat b).toNat = b := toNat_ofNat_of_valid b (Or.inl (by omega))
    cases hu : isUnreserved b with
    | true =>
      rw [encode_cons_unreserved b t hu, decodeName]
      by_cases hus : Char.ofNat b = '_'
      · have hb5 : b = 0x5F := by
          have := congrArg Char.toNat hus
          rw [hv] at this
          exact this
        rw [if_pos hus, escapedByte_encode t hlt2 (h.1 hb5)]
        simp only
        rw [ih2, hus, hb5]
        rfl
      · rw [if_neg hus, ih2, hv]
    | false =>
      have hd : b / 16 < 16 := by omega
      have hm : b % 16 < 16 := by omega
      have hval : hexValue (toHexUpper (b / 16)) * 16 + hexValue (toHexUpper (b % 16)) = b := by
        rw [hexValue_toHexUpper _ hd, hexValue_toHexUpper _ hm]
        omega
      have hesc : escapedByte (toHexUpper (b / 16) :: toHexUpper (b % 16)
          :: replaceChar '%' '_' (t.flatMap percentEncodeByte)) = some b := by
        simp only [escapedByte, List.getD_cons_zero, List.getD_cons_succ,
          isUpperHex_toHexUpper _ hd, isUpperHex_toHexUpper _ hm, hval, hu]
        rfl
      rw [encode_cons_escaped b t hu hb, decodeName, if_pos rfl, hesc]
      simp only [List.drop_succ_cons, List.drop_zero, ih2]

theorem tableNameFor_inj (t1 t2 : List Nat) (h1 : DecodesLosslessly t1)
    (h2 : DecodesLosslessly t2) (e1 : hasEscapeLookalike t1 = false)
    (e2 : hasEscapeLookalike t2 = false) (h : tableNameFor t1 = tableNameFor t2) : t1 = t2 := by
  unfold tableNameFor toPercentEncoding at h
  have h3 := List.append_cancel_left h
  unfold DecodesLosslessly at h1 h2
  rw [h1, h2] at h3
  have hlt1 : ∀ b ∈ t1, b < 256 := by
    intro b hb
    rw [← h1] at hb
    exact toUtf8_lt _ b hb
  have hlt2 : ∀ b ∈ t2, b < 256 := by
    intro b hb
    rw [← h2] at hb
    exact toUtf8_lt _ b hb
  have h4 := congrArg decodeName h3
  rwa [decodeName_encode _ hlt1 e1, decodeName_encode _ hlt2 e2] at h4

theorem tableNameFor_ne_nil (t : List Nat) : tableNameFor t ≠ [] := by
  simp [tableNameFor]

theorem tableNameFor_isEmpty (t : List Nat) : (tableNameFor t).isEmpty = false := by
  simp [tableNameFor]

theorem tableNameFor_managed (t : List Nat) :
    "data_".toList.isPrefixOf (tableNameFor t) = true := by
  simp [tableNameFor]

/-! ## Lemmas on the table-name cache and `getTable` -/

theorem hashValue_hashInsert (m : List (List Nat × List Char)) (k : List Nat) (v : List Char) :
    hashValue (hashInsert m k v) k = v := by
  simp [hashValue, hashInsert, List.lookup]

theorem hashContains_hashInsert (m : List (List Nat × List Char)) (k : List Nat) (v : List Char) :
    hashContains (hashInsert m k v) k = true := by
  simp [hashContains, hashInsert, List.lookup]

theorem lookup_mem {α β : Type} [BEq α] [LawfulBEq α] (m : List (α × β)) (k : α) (v : β)
    (h : m.lookup k = some v) : (k, v) ∈ m := by
  induction m with
  | nil => simp at h
  | cons e m ih =>
    obtain ⟨a, b⟩ := e
    by_cases hk : (k == a) = true
    · have hka : k = a := by simpa using hk
      subst hka
      simp [List.lookup] at h
      simp [h]
    · have : (k == a) = false := by simpa using hk
      simp only [List.lookup, this] at h
      exact List.mem_cons_of_mem _ (ih h)

theorem lookup_isSome_iff {α β : Type} [BEq α] [LawfulBEq α] (m : List (α × β)) (k : α) :
    (m.lookup k).isSome = true ↔ k ∈ m.map Prod.fst := by
  induction m with
  | nil => simp
  | cons e m ih =>
    obtain ⟨a, b⟩ := e
    by_cases hk : (k == a) = true
    · have hka : k = a := by simpa using hk
      subst hka
      simp [List.lookup]
    · have hf : (k == a) = false := by simpa using hk
      have hne : k ≠ a := by simpa using hk
      simp only [List.lookup, hf, ih, List.map_cons, List.mem_cons, hne, false_or]

theorem lookup_eq_none_iff {α β : Type} [BEq α] [LawfulBEq α] (m : List (α × β)) (k : α) :
    m.lookup k = none ↔ k ∉ m.map Prod.fst := by
  rw [← lookup_isSome_iff]
  cases m.lookup k <;> simp

theorem hashValue_of_contains (m : List (List Nat × List Char)) (k : List Nat)
    (hm : ∀ e ∈ m, e.2 = tableNameFor e.1) (h : hashContains m k = true) :
    hashValue m k = tableNameFor k := by
  unfold hashContains at h
  unfold hashValue
  cases hl : m.lookup k with
  | none => simp [hl] at h
  | some v =>
    have := hm _ (lookup_mem m k v hl)
    simpa using this

theorem hashValue_of_not_contains (m : List (List Nat × List Char)) (k : List Nat)
    (h : hashContains m k = false) : hashValue m k = [] := by
  unfold hashContains at h
  unfold hashValue
  cases hl : m.lookup k with
  | none => rfl
  | some v => simp [hl] at h

theorem namesValid_hashInsert (this : LocalStore) (t : List Nat) (hn : this.NamesValid) :
    ({ this with tableNameCache := hashInsert this.tableNameCache t (tableNameFor t) }
      : LocalStore).NamesValid := by
  intro e he
  simp only [hashInsert, List.mem_cons, List.mem_filter] at he
  rcases he with he | he
  · subst he
    rfl
  · exact hn e he.1

/-- The five ways through `getTable`, for a handle whose cached names are the computed ones. -/
theorem getTable_eq (db : Database) (this : LocalStore) (t : List Nat) (ac : Bool) (env : Env)
    (hn : this.NamesValid) :
    LocalStore.getTable db this t ac env =
      if hashContains this.tableNameCache t then (db, this, .ok (tableNameFor t))
      else if tableNameFor t ∈ db.tableNames then
        (db, { this with tableNameCache := hashInsert this.tableNameCache t (tableNameFor t) },
          .ok (tableNameFor t))
      else if ac then
        if env.failAt = some Step.createTable then (db, this, .error (.localStore .createTable))
        else
          ({ tables := db.tables ++ [(tableNameFor t, [])] },
            { this with tableNameCache := hashInsert this.tableNameCache t (tableNameFor t) },
            .ok (tableNameFor t))
      else (db, this, .ok []) := by
  unfold LocalStore.getTable
  by_cases h1 : hashContains this.tableNameCache t = true
  · simp only [h1, if_true, hashValue_of_contains _ _ hn h1]
  · have h1f : hashContains this.tableNameCache t = false := by simpa using h1
    simp only [h1f, Bool.false_eq_true, if_false, hashValue_hashInsert]
    by_cases h2 : tableNameFor t ∈ db.tableNames
    · simp only [h2, if_true]
    · simp only [h2, if_false, Database.createTable, hashValue_of_not_contains _ _ h1f]

theorem getTable_props (db : Database) (this : LocalStore) (t : List Nat) (ac : Bool)
    (env : Env) (hn : this.NamesValid) :
    (getTable db this t ac env).2.1.NamesValid ∧
    (getTable db this t ac env).2.1.self = this.self ∧
    (getTable db this t ac env).2.1.dataCache = this.dataCache ∧
    (getTable db this t ac env).2.1.raised = this.raised ∧
    ((getTable db this t ac env).1 = db ∨
      (ac = true ∧ tableNameFor t ∉ db.tableNames ∧
        (getTable db this t ac env).1 = { tables := db.tables ++ [(tableNameFor t, [])] })) ∧
    (∀ name, (getTable db this t ac env).2.2 = .ok name →
      (name = tableNameFor t ∧
        hashContains (getTable db this t ac env).2.1.tableNameCache t = true ∧
        (hashContains this.tableNameCache t = true ∨
          tableNameFor t ∈ (getTable db this t ac env).1.tableNames)) ∨
      (name = [] ∧ ac = false ∧ (getTable db this t ac env).2.1 = this ∧
        hashContains this.tableNameCache t = false ∧ tableNameFor t ∉ db.tableNames)) := by
  rw [getTable_eq db this t ac env hn]
  by_cases h1 : hashContains this.tableNameCache t = true
  · rw [if_pos h1]
    exact ⟨hn, rfl, rfl, rfl, Or.inl rfl, fun name h => Or.inl ⟨by cases h; rfl, h1, Or.inl h1⟩⟩
  · have h1f : hashContains this.tableNameCache t = false := by simpa using h1
    rw [if_neg h1]
    by_cases h2 : tableNameFor t ∈ db.tableNames
    · rw [if_pos h2]
      exact ⟨namesValid_hashInsert this t hn, rfl, rfl, rfl, Or.inl rfl,
        fun name h => Or.inl ⟨by cases h; rfl, hashContains_hashInsert _ _ _, Or.inr h2⟩⟩
    · rw [if_neg h2]
      cases ac with
      | false =>
        rw [if_neg (by simp)]
        exact ⟨hn, rfl, rfl, rfl, Or.inl rfl,
          fun name h => Or.inr ⟨by cases h; rfl, rfl, rfl, h1f, h2⟩⟩
      | true =>
        rw [if_pos rfl]
        by_cases h3 : env.failAt = some Step.createTable
        · rw [if_pos h3]
          exact ⟨hn, rfl, rfl, rfl, Or.inl rfl, fun name h => by cases h⟩
        · rw [if_neg h3]
          refine ⟨namesValid_hashInsert this t hn, rfl, rfl, rfl, Or.inr ⟨rfl, h2, rfl⟩,
            fun name h => Or.inl ⟨by cases h; rfl, hashContains_hashInsert _ _ _, Or.inr ?_⟩⟩
          simp [Database.tableNames]

/-! ## Lemmas on the database and the file system -/

theorem head?_filter_eq_find? {α : Type} (p : α → Bool) (l : List α) :
    (l.filter p).head? = l.find? p := by
  induction l with
  | nil => rfl
  | cons a l ih =>
    by_cases h : p a = true
    · simp [List.filter, h]
    · simp [List.filter, h, ih]

theorem lookup_map_replace {α β : Type} [BEq α] [LawfulBEq α] [DecidableEq α]
    (m : List (α × β)) (t k : α) (v : β) :
    (m.map (fun e => if e.1 = t then (e.1, v) else e)).lookup k
      = if k = t then (m.lookup k).map (fun _ => v) else m.lookup k := by
  induction m with
  | nil => simp
  | cons e m ih =>
    obtain ⟨a, b⟩ := e
    rw [List.map_cons, List.lookup_cons, List.lookup_cons]
    by_cases hat : a = t
    · rw [if_pos hat]
      by_cases hka : (k == a) = true
      · have hk : k = a := by simpa using hka
        simp [hka, hk, hat]
      · have hf : (k == a) = false := by simpa using hka
        simp only [hf]
        exact ih
    · rw [if_neg hat]
      by_cases hka : (k == a) = true
      · have hk : k = a := by simpa using hka
        have hkt : k ≠ t := hk ▸ hat
        simp [hka, hkt]
      · have hf : (k == a) = false := by simpa using hka
        simp only [hf]
        exact ih

theorem rows_setRows (db : Database) (t k : List Char) (rs : List Row) :
    (db.setRows t rs).rows k = if k = t then (db.rows k).map (fun _ => rs) else db.rows k := by
  unfold Database.setRows Database.rows
  exact lookup_map_replace db.tables t k rs

theorem tableNames_setRows (db : Database) (t : List Char) (rs : List Row) :
    (db.setRows t rs).tableNames = db.tableNames := by
  unfold Database.setRows Database.tableNames
  simp only [List.map_map]
  apply List.map_congr_left
  intro e _
  by_cases h : e.1 = t <;> simp [h]

theorem rows_isSome_iff (db : Database) (t : List Char) :
    (db.rows t).isSome = true ↔ t ∈ db.tableNames :=
  lookup_isSome_iff db.tables t

theorem rows_eq_none_iff (db : Database) (t : List Char) :
    db.rows t = none ↔ t ∉ db.tableNames :=
  lookup_eq_none_iff db.tables t

theorem rows_append_new (db : Database) (t k : List Char) (h : t ∉ db.tableNames) :
    ({ tables := db.tables ++ [(t, [])] } : Database).rows k
      = if k = t then some [] else db.rows k := by
  unfold Database.rows
  simp only [List.lookup_append]
  by_cases hk : k = t
  · subst hk
    have := (lookup_eq_none_iff db.tables k).2 h
    simp [this, List.lookup]
  · have hf : (k == t) = false := by simpa using hk
    simp only [hk, if_false, List.lookup, hf]
    cases List.lookup k db.tables <;> rfl

theorem read_mkpath (fs : FileSystem) (d t n : List Char) :
    (fs.mkpath d).read t n = fs.read t n := rfl

theorem read_write (fs : FileSystem) (t n t2 n2 : List Char) (c : List Nat) :
    (fs.write t n c).read t2 n2 = if (t2, n2) = (t, n) then some c else fs.read t2 n2 := by
  unfold FileSystem.write
  by_cases hx : fs.fileExists t n = true
  · simp only [hx, if_true]
    unfold FileSystem.read
    rw [lookup_map_replace]
    by_cases hk : (t2, n2) = (t, n)
    · rw [if_pos hk, if_pos hk, hk]
      unfold FileSystem.fileExists FileSystem.read at hx
      cases hl : List.lookup (t, n) fs.files with
      | none => simp [hl] at hx
      | some v => rfl
    · rw [if_neg hk, if_neg hk]
  · simp only [hx]
    unfold FileSystem.read
    simp only [Bool.false_eq_true, if_false, List.lookup_append]
    have hx2 : fs.fileExists t n = false := by simpa using hx
    unfold FileSystem.fileExists FileSystem.read at hx2
    by_cases hk : (t2, n2) = (t, n)
    · rw [if_pos hk, hk]
      cases hl : List.lookup (t, n) fs.files with
      | none => simp [List.lookup]
      | some v => simp [hl] at hx2
    · rw [if_neg hk]
      have hf : ((t2, n2) == (t, n)) = false := by simpa using hk
      simp only [List.lookup, hf]
      cases List.lookup (t2, n2) fs.files <;> rfl

theorem completeBaseName_dat (x : List Char) :
    completeBaseName (x ++ dotDat) = x := by
  unfold completeBaseName
  have hmem : '.' ∈ x ++ dotDat := by simp [dotDat]
  rw [if_pos hmem]
  have e : (x ++ dotDat).reverse = 't' :: 'a' :: 'd' :: '.' :: x.reverse := by
    simp [dotDat]
  rw [e]
  simp [List.dropWhile]

/-! ## Lemmas on `save` -/

theorem saveTransaction_ok (qt : Qt) (db db1 : Database) (fs fs1 : FileSystem)
    (table : List Char) (key : ObjectKey) (data : QJsonObject) (env : Env) (size : Int)
    (h : saveTransaction qt db fs table key data env = (fs1, .ok (db1, size))) :
    ∃ rs, db.rows table = some rs ∧ size = ((qt.toBinaryData data).length : Int) ∧
      ((∃ row, rs.find? (fun r => r.key = key.id) = some row ∧
          db1 = db.setRows table (rs.map (fun r =>
            if r.key = key.id then
              { r with checksum := toHex (qt.sha3 (qt.toBinaryData data)),
                       version := r.version + 1 }
            else r)) ∧
          fs1 = fs.write table (row.file ++ dotDat) (qt.toBinaryData data))
      ∨ (rs.find? (fun r => r.key = key.id) = none ∧
          fs.fileExists table (env.tempName ++ dotDat) = false ∧
          db1 = db.setRows table (rs ++
            [{ key := key.id, version := 1, file := env.tempName,
               checksum := toHex (qt.sha3 (qt.toBinaryData data)) }]) ∧
          fs1 = fs.write table (env.tempName ++ dotDat) (qt.toBinaryData data))) := by
  unfold saveTransaction at h
  split at h
  · simp at h
  · cases hr : db.rows table with
    | none => simp [Database.selectByKey, hr] at h
    | some rs =>
      refine ⟨rs, rfl, ?_⟩
      simp only [Database.selectByKey, hr, Option.map_some', head?_filter_eq_find?] at h
      cases hf : rs.find? (fun r => decide (r.key = key.id)) with
      | some row =>
        simp only [hf] at h
        split at h
        · simp at h
        · split at h
          · simp at h
          · split at h
            · simp at h
            · simp only [Database.updateRow, hr, Option.map_some'] at h
              split at h
              · simp at h
              · split at h
                · simp at h
                · simp only [Prod.mk.injEq, Except.ok.injEq] at h
                  obtain ⟨h1, h2, h3⟩ := h
                  exact ⟨h3.symm, Or.inl ⟨row, rfl, h2.symm, h1.symm⟩⟩
      | none =>
        simp only [hf] at h
        split at h
        · simp at h
        · rename_i hopen
          split at h
          · simp at h
          · split at h
            · simp at h
            · have hany : rs.any (fun r => decide (r.key = key.id)) = false := by
                rw [List.any_eq_false]
                exact List.find?_eq_none.1 hf
              simp only [Database.insertRow, hr, hany, Bool.false_eq_true, if_false,
                completeBaseName_dat] at h
              split at h
              · simp at h
              · split at h
                · simp at h
                · simp only [Prod.mk.injEq, Except.ok.injEq] at h
                  obtain ⟨h1, h2, h3⟩ := h
                  simp only [Bool.or_eq_true, not_or, decide_eq_true_eq] at hopen
                  refine ⟨h3.symm, Or.inr ⟨rfl, by simpa using hopen.2, h2.symm, h1.symm⟩⟩

/-- What a successful `save` did. -/
theorem save_ok (qt : Qt) (sys : System) (key : ObjectKey) (data : QJsonObject) (env : Env)
    (hn : sys.this.NamesValid) (h : (save qt sys key data env).result = .ok ()) :
    ∃ db0 this0 fs1 db1,
      getTable sys.db sys.this key.typeName true env
        = (db0, this0, .ok (tableNameFor key.typeName)) ∧
      saveTransaction qt db0 (sys.fs.mkpath (tableNameFor key.typeName))
          (tableNameFor key.typeName) key data env
        = (fs1, .ok (db1, ((qt.toBinaryData data).length : Int))) ∧
      (save qt sys key data env).sys =
        { db := db1, fs := fs1,
          this := { this0 with
            dataCache := this0.dataCache.insert key data ((qt.toBinaryData data).length : Int),
            raised := this0.raised ++ [Signal.dataChanged key false] },
          others := sys.others.map
            (onDataChange sys.this.self key data ((qt.toBinaryData data).length : Int)) } := by
  have hp := getTable_props sys.db sys.this key.typeName true env hn
  obtain ⟨_, hself, _, _, _, hname⟩ := hp
  unfold save at h ⊢
  rcases hg : getTable sys.db sys.this key.typeName true env with ⟨db0, this0, res⟩
  rw [hg] at hself hname
  simp only at hself hname
  cases res with
  | error e => simp [hg] at h
  | ok table =>
    rcases hname table rfl with ⟨ht, _, _⟩ | ⟨_, hac, _⟩
    · subst ht
      simp only [hg] at h ⊢
      unfold typeDirectory at h ⊢
      by_cases hm : env.failAt = some Step.mkpath
      · simp [hm] at h
      · simp only [hm, if_false] at h ⊢
        by_cases htx : env.failAt = some Step.transaction
        · simp [htx] at h
        · simp only [htx, if_false] at h ⊢
          rcases hs : saveTransaction qt db0 (sys.fs.mkpath (tableNameFor key.typeName))
              (tableNameFor key.typeName) key data env with ⟨fs1, r⟩
          cases r with
          | error e => simp [hs] at h
          | ok p =>
            obtain ⟨db1, size⟩ := p
            obtain ⟨rs, _, hsize, _⟩ := saveTransaction_ok qt db0 db1 _ fs1 _ key data env size hs
            subst hsize
            refine ⟨db0, this0, fs1, db1, rfl, hs, ?_⟩
            simp only [onDataChange, ne_eq, not_true_eq_false, if_false, hself]
    · simp at hac

theorem find?_key_map (rs : List Row) (id : List Char) (f : Row → Row)
    (hf : ∀ r, (f r).key = r.key) :
    (rs.map f).find? (fun r => r.key = id) = (rs.find? (fun r => r.key = id)).map f := by
  rw [List.find?_map]
  have e : ((fun r : Row => decide (r.key = id)) ∘ f) = (fun r => decide (r.key = id)) := by
    funext r
    simp [Function.comp, hf]
  rw [e]

theorem mem_dirs_mkpath (fs : FileSystem) (t : List Char) : t ∈ (fs.mkpath t).dirs := by
  unfold FileSystem.mkpath
  by_cases h : t ∈ fs.dirs <;> simp [h]

theorem dirs_write (fs : FileSystem) (t n : List Char) (c : List Nat) :
    (fs.write t n c).dirs = fs.dirs := by
  unfold FileSystem.write
  split <;> rfl

/-- The index record and the blob a successful `save` leaves for its key. -/
theorem save_record (qt : Qt) (sys : System) (key : ObjectKey) (data : QJsonObject) (env : Env)
    (hn : sys.this.NamesValid) (h : (save qt sys key data env).result = .ok ()) :
    ∃ row, (save qt sys key data env).sys.db.record key = some row ∧
      row.key = key.id ∧
      row.version = (match sys.db.versionOf key with
        | some v => v + 1
        | none => 1) ∧
      row.checksum = toHex (qt.sha3 (qt.toBinaryData data)) ∧
      (save qt sys key data env).sys.fs.read (tableNameFor key.typeName)
        (row.file ++ dotDat) = some (qt.toBinaryData data) ∧
      tableNameFor key.typeName ∈ (save qt sys key data env).sys.db.tableNames ∧
      tableNameFor key.typeName ∈ (save qt sys key data env).sys.fs.dirs := by
  obtain ⟨db0, this0, fs1, db1, hg, hs, hsys⟩ := save_ok qt sys key data env hn h
  obtain ⟨_, _, _, _, hdb, _⟩ := getTable_props sys.db sys.this key.typeName true env hn
  rw [hg] at hdb
  simp only at hdb
  obtain ⟨rs, hrs, _, hcase⟩ := saveTransaction_ok qt db0 db1 _ fs1 _ key data env _ hs
  rw [hsys]
  simp only [Database.record, Database.versionOf]
  have hmem : tableNameFor key.typeName ∈ db0.tableNames := by
    rw [← rows_isSome_iff, hrs]; rfl
  -- the version the key had before
  have hbefore : (sys.db.rows (tableNameFor key.typeName)).bind
      (fun rs => rs.find? (fun r => r.key = key.id)) = rs.find? (fun r => r.key = key.id) := by
    rcases hdb with hdb | ⟨_, hnot, hdb⟩
    · rw [← hdb, hrs]; rfl
    · rw [hdb, rows_append_new _ _ _ hnot, if_pos rfl] at hrs
      cases hrs
      rw [(rows_eq_none_iff _ _).2 hnot]
      rfl
  rw [hbefore]
  rcases hcase with ⟨row, hfind, hdb1, hfs1⟩ | ⟨hfind, hfresh, hdb1, hfs1⟩
  · refine ⟨{ row with checksum := toHex (qt.sha3 (qt.toBinaryData data)),
                       version := row.version + 1 }, ?_, ?_, ?_, rfl, ?_, ?_, ?_⟩
    · rw [hdb1, rows_setRows, if_pos rfl, hrs]
      simp only [Option.map_some', Option.some_bind]
      rw [find?_key_map rs key.id _ (by intro r; by_cases h : r.key = key.id <;> simp [h]), hfind]
      have hk : row.key = key.id := by simpa using List.find?_some hfind
      simp [hk]
    · simpa using List.find?_some hfind
    · simp [hfind]
    · rw [hfs1, read_write, if_pos rfl]
    · rw [hdb1, tableNames_setRows]; exact hmem
    · rw [hfs1, dirs_write]; exact mem_dirs_mkpath _ _
  · refine ⟨{ key := key.id, version := 1, file := env.tempName,
              checksum := toHex (qt.sha3 (qt.toBinaryData data)) }, ?_, rfl, ?_, rfl, ?_, ?_, ?_⟩
    · rw [hdb1, rows_setRows, if_pos rfl, hrs]
      simp only [Option.map_some', Option.some_bind, List.find?_append, hfind]
      simp
    · simp [hfind]
    · rw [hfs1, read_write, if_pos rfl]
    · rw [hdb1, tableNames_setRows]; exact hmem
    · rw [hfs1, dirs_write]; exact mem_dirs_mkpath _ _

theorem save_namesValid (qt : Qt) (sys : System) (key : ObjectKey) (data : QJsonObject)
    (env : Env) (hn : sys.this.NamesValid) :
    (save qt sys key data env).sys.this.NamesValid := by
  have hp := (getTable_props sys.db sys.this key.typeName true env hn).1
  have e : (save qt sys key data env).sys.this.tableNameCache
      = (getTable sys.db sys.this key.typeName true env).2.1.tableNameCache := by
    unfold save
    rcases getTable sys.db sys.this key.typeName true env with ⟨db0, this0, res⟩
    cases res with
    | error e => rfl
    | ok table =>
      simp only
      cases typeDirectory sys.fs table env with
      | error e => rfl
      | ok fs0 =>
        simp only
        split
        · rfl
        · rcases saveTransaction qt db0 fs0 table key data env with ⟨fs1, r⟩
          cases r with
          | error e => rfl
          | ok p =>
            simp only [onDataChange, ne_eq, not_true_eq_false, if_false]
  intro x hx
  rw [e] at hx
  exact hp x hx
theorem object_of_not_contains (c : QCache) (key : ObjectKey) (h : c.contains key = false) :
    c.object key = (c, none) := by
  unfold QCache.object
  unfold QCache.contains at h
  have : c.entries.find? (fun e => e.key = key) = none := by
    rw [List.find?_eq_none]
    exact List.any_eq_false.1 h
  rw [this]

/-- A load that misses the cache, in a calm environment, returns the stored document of the
index record when there is one. -/
theorem load_of_record (qt : Qt) (sys : System) (key : ObjectKey) (env : Env) (row : Row)
    (bytes : List Nat) (d : QJsonObject) (hn : sys.this.NamesValid)
    (hmiss : sys.this.dataCache.contains key = false) (hcalm : env.failAt = none)
    (hrec : sys.db.record key = some row)
    (hread : sys.fs.read (tableNameFor key.typeName) (row.file ++ dotDat) = some bytes)
    (hparse : qt.fromBinaryData bytes = some d) :
    (load qt sys key env).result = .ok d := by
  unfold load
  rw [object_of_not_contains _ _ hmiss]
  simp only
  unfold Database.record at hrec
  cases hrows : sys.db.rows (tableNameFor key.typeName) with
  | none => simp [hrows] at hrec
  | some rs =>
    rw [hrows] at hrec
    simp only [Option.some_bind] at hrec
    have hex : tableNameFor key.typeName ∈ sys.db.tableNames := by
      rw [← rows_isSome_iff, hrows]; rfl
    have hg : ∃ this0, getTable sys.db sys.this key.typeName false env
        = (sys.db, this0, .ok (tableNameFor key.typeName)) := by
      rw [getTable_eq _ _ _ _ _ hn]
      by_cases h1 : hashContains sys.this.tableNameCache key.typeName = true
      · rw [if_pos h1]; exact ⟨_, rfl⟩
      · rw [if_neg h1, if_pos hex]; exact ⟨_, rfl⟩
    obtain ⟨this0, hg⟩ := hg
    rw [hg]
    simp only [tableNameFor_isEmpty, Bool.false_eq_true, if_false, hcalm, Database.selectByKey,
      hrows, Option.map_some', head?_filter_eq_find?, hrec, readJson, typeDirectory]
    have hread2 : (sys.fs.mkpath (tableNameFor key.typeName)).read (tableNameFor key.typeName)
        (row.file ++ dotDat) = some bytes := hread
    simp [hread2, hparse]

/-- A load that misses the cache, in a calm environment, throws `NoDataException` when the
table of the type exists and has no record for the key. -/
theorem load_of_no_record (qt : Qt) (sys : System) (key : ObjectKey) (env : Env)
    (hn : sys.this.NamesValid) (hmiss : sys.this.dataCache.contains key = false)
    (hcalm : env.failAt = none)
    (hex : tableNameFor key.typeName ∈ sys.db.tableNames)
    (hrec : sys.db.record key = none) :
    (load qt sys key env).result = .error (.noData key) := by
  unfold load
  rw [object_of_not_contains _ _ hmiss]
  simp only
  unfold Database.record at hrec
  cases hrows : sys.db.rows (tableNameFor key.typeName) with
  | none =>
    rw [rows_eq_none_iff] at hrows
    exact absurd hex hrows
  | some rs =>
    rw [hrows] at hrec
    simp only [Option.some_bind] at hrec
    have hg : ∃ this0, getTable sys.db sys.this key.typeName false env
        = (sys.db, this0, .ok (tableNameFor key.typeName)) := by
      rw [getTable_eq _ _ _ _ _ hn]
      by_cases h1 : hashContains sys.this.tableNameCache key.typeName = true
      · rw [if_pos h1]; exact ⟨_, rfl⟩
      · rw [if_neg h1, if_pos hex]; exact ⟨_, rfl⟩
    obtain ⟨this0, hg⟩ := hg
    rw [hg]
    simp only [tableNameFor_isEmpty, Bool.false_eq_true, if_false, hcalm, Database.selectByKey,
      hrows, Option.map_some', head?_filter_eq_find?, hrec]
    simp

theorem savedTimes_version (qt : Qt) (key : ObjectKey) (db db1 : Database) (n : Nat)
    (h : SavedTimes qt key db n db1) (hfresh : db.record key = none) :
    db1.versionOf key = if n = 0 then none else some n := by
  induction h with
  | start => simp [Database.versionOf, hfresh]
  | save n sys data env _ hn hres ih =>
    obtain ⟨row, hrec, _, hver, _⟩ := save_record qt sys key data env hn hres
    unfold Database.versionOf at hver ih ⊢
    rw [hrec]
    simp only [Option.map_some']
    rw [hver, ih]
    by_cases h0 : n = 0
    · simp [h0]
    · simp [h0]
  | other db1 db2 n _ hsame ih =>
    unfold Database.versionOf at ih ⊢
    rw [hsame]
    exact ih

theorem saveTransaction_commit_error (qt : Qt) (db : Database) (fs fs1 : FileSystem)
    (table : List Char) (key : ObjectKey) (data : QJsonObject) (env : Env)
    (h : saveTransaction qt db fs table key data env = (fs1, .error (.localStore .commit))) :
    ∃ rs, db.rows table = some rs ∧
      ((∃ row, rs.find? (fun r => r.key = key.id) = some row ∧
          fs1 = fs.write table (row.file ++ dotDat) (qt.toBinaryData data))
      ∨ (rs.find? (fun r => r.key = key.id) = none ∧
          fs.fileExists table (env.tempName ++ dotDat) = false ∧
          fs1 = fs.write table (env.tempName ++ dotDat) (qt.toBinaryData data))) := by
  unfold saveTransaction at h
  split at h
  · simp at h
  · cases hr : db.rows table with
    | none => simp [Database.selectByKey, hr] at h
    | some rs =>
      refine ⟨rs, rfl, ?_⟩
      simp only [Database.selectByKey, hr, Option.map_some', head?_filter_eq_find?] at h
      cases hf : rs.find? (fun r => decide (r.key = key.id)) with
      | some row =>
        simp only [hf] at h
        split at h
        · simp at h
        · split at h
          · simp at h
          · split at h
            · simp at h
            · simp only [Database.updateRow, hr, Option.map_some'] at h
              split at h
              · simp at h
              · split at h
                · simp only [Prod.mk.injEq] at h
                  exact Or.inl ⟨row, rfl, h.1.symm⟩
                · simp at h
      | none =>
        simp only [hf] at h
        split at h
        · simp at h
        · rename_i hopen
          split at h
          · simp at h
          · split at h
            · simp at h
            · have hany : rs.any (fun r => decide (r.key = key.id)) = false := by
                rw [List.any_eq_false]
                exact List.find?_eq_none.1 hf
              simp only [Database.insertRow, hr, hany, Bool.false_eq_true, if_false,
                completeBaseName_dat] at h
              split at h
              · simp at h
              · split at h
                · simp only [Prod.mk.injEq] at h
                  simp only [Bool.or_eq_true, not_or, decide_eq_true_eq] at hopen
                  exact Or.inr ⟨rfl, by simpa using hopen.2, h.1.symm⟩
                · simp at h

/-- What a `save` did whose index commit was refused. -/
theorem save_commit_error (qt : Qt) (sys : System) (key : ObjectKey) (data : QJsonObject)
    (env : Env) (hn : sys.this.NamesValid)
    (h : (save qt sys key data env).result = .error (.localStore .commit)) :
    ∃ db0 this0 fs1,
      getTable sys.db sys.this key.typeName true env
        = (db0, this0, .ok (tableNameFor key.typeName)) ∧
      saveTransaction qt db0 (sys.fs.mkpath (tableNameFor key.typeName))
          (tableNameFor key.typeName) key data env
        = (fs1, .error (.localStore .commit)) ∧
      (save qt sys key data env).sys = { sys with db := db0, fs := fs1, this := this0 } := by
  have hp := getTable_props sys.db sys.this key.typeName true env hn
  obtain ⟨_, hself, _, _, _, hname⟩ := hp
  unfold save at h ⊢
  rcases hg : getTable sys.db sys.this key.typeName true env with ⟨db0, this0, res⟩
  rw [hg] at hself hname
  simp only at hself hname
  cases res with
  | error e =>
    exfalso
    have hg2 := hg
    rw [getTable_eq _ _ _ _ _ hn] at hg2
    simp only [hg] at h
    split at hg2
    · simp at hg2
    · split at hg2
      · simp at hg2
      · simp only [if_true] at hg2
        split at hg2
        · simp only [Prod.mk.injEq, Except.error.injEq] at hg2
          rw [← hg2.2.2] at h
          simp at h
        · simp at hg2
  | ok table =>
    rcases hname table rfl with ⟨ht, _, _⟩ | ⟨_, hac, _⟩
    · subst ht
      simp only [hg] at h ⊢
      unfold typeDirectory at h ⊢
      by_cases hm : env.failAt = some Step.mkpath
      · simp [hm] at h
      · simp only [hm, if_false] at h ⊢
        by_cases htx : env.failAt = some Step.transaction
        · simp [htx] at h
        · simp only [htx, if_false] at h ⊢
          rcases hs : saveTransaction qt db0 (sys.fs.mkpath (tableNameFor key.typeName))
              (tableNameFor key.typeName) key data env with ⟨fs1, r⟩
          cases r with
          | error e =>
            simp only [hs] at h ⊢
            simp only [Except.error.injEq] at h
            subst h
            exact ⟨db0, this0, fs1, rfl, hs, rfl⟩
          | ok p => simp [hs] at h
    · simp at hac
theorem mem_tables_of_rows (db : Database) (t : List Char) (rs : List Row)
    (h : db.rows t = some rs) : (t, rs) ∈ db.tables :=
  lookup_mem db.tables t rs h

theorem lookup_of_mem_nodup {α β : Type} [BEq α] [LawfulBEq α] (m : List (α × β))
    (hnd : (m.map Prod.fst).Nodup) (e : α × β) (he : e ∈ m) : m.lookup e.1 = some e.2 := by
  induction m with
  | nil => simp at he
  | cons a m ih =>
    simp only [List.map_cons, List.nodup_cons] at hnd
    rw [List.lookup_cons]
    rcases List.mem_cons.1 he with h | h
    · subst h
      simp
    · have hne : e.1 ≠ a.1 := by
        intro hh
        apply hnd.1
        rw [← hh]
        exact List.mem_map_of_mem _ h
      have : (e.1 == a.1) = false := by simpa using hne
      simp only [this]
      exact ih hnd.2 h

theorem rows_of_mem (db : Database) (hnd : db.tableNames.Nodup) (e : List Char × List Row)
    (he : e ∈ db.tables) : db.rows e.1 = some e.2 :=
  lookup_of_mem_nodup db.tables hnd e he

/-- The record a key had before `getTable` ran, read off the rows `save` then finds. -/
theorem record_before (db db0 : Database) (key : ObjectKey) (rs : List Row)
    (hdb : db0 = db ∨ (tableNameFor key.typeName ∉ db.tableNames ∧
      db0 = { tables := db.tables ++ [(tableNameFor key.typeName, [])] }))
    (hrs : db0.rows (tableNameFor key.typeName) = some rs) :
    db.record key = rs.find? (fun r => r.key = key.id) := by
  unfold Database.record
  rcases hdb with hdb | ⟨hnot, hdb⟩
  · rw [← hdb, hrs]; rfl
  · rw [hdb, rows_append_new _ _ _ hnot, if_pos rfl] at hrs
    cases hrs
    rw [(rows_eq_none_iff _ _).2 hnot]
    rfl

theorem files_write_new (fs : FileSystem) (t n : List Char) (c : List Nat)
    (h : fs.fileExists t n = false) : (fs.write t n c).files = fs.files ++ [((t, n), c)] := by
  unfold FileSystem.write
  simp [h]

theorem files_write_names (fs : FileSystem) (t n : List Char) (c : List Nat)
    (h : fs.fileExists t n = true) :
    (fs.write t n c).files.map Prod.fst = fs.files.map Prod.fst := by
  unfold FileSystem.write
  simp only [h, if_true, List.map_map]
  apply List.map_congr_left
  intro e _
  by_cases he : e.1 = (t, n) <;> simp [he]

theorem blobMatches_exists (qt : Qt) (fs : FileSystem) (t : List Char) (r : Row)
    (h : r.BlobMatches qt fs t) : fs.fileExists t (r.file ++ dotDat) = true := by
  unfold Row.BlobMatches at h
  unfold FileSystem.fileExists
  cases hr : fs.read t (r.file ++ dotDat) with
  | none => simp [hr] at h
  | some c => rfl

theorem blobMatches_write_other (qt : Qt) (fs : FileSystem) (t n t2 : List Char) (c : List Nat)
    (r : Row) (h : r.BlobMatches qt fs t2) (hne : (t2, r.file ++ dotDat) ≠ (t, n)) :
    r.BlobMatches qt (fs.write t n c) t2 := by
  unfold Row.BlobMatches at h ⊢
  rw [read_write, if_neg hne]
  exact h

theorem blobExists_write (fs : FileSystem) (t n t2 : List Char) (c : List Nat)
    (r : Row) (h : fs.fileExists t2 (r.file ++ dotDat) = true) :
    r.BlobExists (fs.write t n c) t2 := by
  unfold Row.BlobExists FileSystem.fileExists at *
  rw [read_write]
  split
  · rfl
  · exact h
/-! ## Lemmas on `remove` -/

theorem removeTransaction_ok (db db1 : Database) (fs fs1 : FileSystem) (table : List Char)
    (key : ObjectKey) (env : Env) (b : Bool)
    (h : removeTransaction db fs table key env = (fs1, .ok (db1, b))) :
    ∃ rs, db.rows table = some rs ∧
      ((b = true ∧ ∃ row, rs.find? (fun r => r.key = key.id) = some row ∧
          db1 = db.setRows table (rs.filter (fun r => r.key ≠ key.id)) ∧
          (fs.mkpath table).remove table (row.file ++ dotDat) = some fs1)
      ∨ (b = false ∧ rs.find? (fun r => r.key = key.id) = none ∧ db1 = db ∧ fs1 = fs)) := by
  unfold removeTransaction at h
  split at h
  · simp at h
  · cases hr : db.rows table with
    | none => simp [Database.selectByKey, hr] at h
    | some rs =>
      refine ⟨rs, rfl, ?_⟩
      simp only [Database.selectByKey, hr, Option.map_some', head?_filter_eq_find?] at h
      cases hf : rs.find? (fun r => decide (r.key = key.id)) with
      | some row =>
        simp only [hf] at h
        split at h
        · simp at h
        · by_cases hmk : env.failAt = some Step.mkpath
          · simp [Database.deleteRow, hr, typeDirectory, hmk] at h
          · simp only [Database.deleteRow, hr, Option.map_some', typeDirectory, hmk,
              if_false] at h
            split at h
            · simp at h
            · cases hrem : (fs.mkpath table).remove table (row.file ++ dotDat) with
              | none => simp [hrem] at h
              | some fs2 =>
                simp only [hrem] at h
                split at h
                · simp at h
                · simp only [Prod.mk.injEq, Except.ok.injEq] at h
                  obtain ⟨h1, h2, h3⟩ := h
                  subst h1
                  refine Or.inl ⟨h3.symm, row, rfl, ?_, hrem⟩
                  rw [← h2]
      | none =>
        simp only [hf] at h
        split at h
        · simp at h
        · simp only [Prod.mk.injEq, Except.ok.injEq] at h
          obtain ⟨h1, h2, h3⟩ := h
          exact Or.inr ⟨h3.symm, rfl, h2.symm, h1.symm⟩
/-- What a `remove` that returned did. -/
theorem remove_ok (sys : System) (key : ObjectKey) (env : Env) (b : Bool)
    (hn : sys.this.NamesValid) (h : (remove sys key env).result = .ok b) :
    (b = false ∧ sys.db.record key = none ∧ (remove sys key env).sys.db = sys.db ∧
      (remove sys key env).sys.fs = sys.fs ∧
      (remove sys key env).sys.this.dataCache = sys.this.dataCache) ∨
    (b = true ∧ ∃ (rs : List Row) (row : Row) (this0 : LocalStore) (fs1 : FileSystem),
      sys.db.rows (tableNameFor key.typeName) = some rs ∧
      rs.find? (fun r => r.key = key.id) = some row ∧
      (sys.fs.mkpath (tableNameFor key.typeName)).remove (tableNameFor key.typeName)
        (row.file ++ dotDat) = some fs1 ∧
      this0.NamesValid ∧ this0.self = sys.this.self ∧ this0.dataCache = sys.this.dataCache ∧
      this0.raised = sys.this.raised ∧
      (remove sys key env).sys =
        { db := sys.db.setRows (tableNameFor key.typeName)
            (rs.filter (fun r => r.key ≠ key.id)),
          fs := fs1,
          this := { this0 with dataCache := this0.dataCache.remove key,
                               raised := this0.raised ++ [Signal.dataChanged key true] },
          others := sys.others.map (onDataChange sys.this.self key [] 0) }) := by
  have hp := getTable_props sys.db sys.this key.typeName false env hn
  obtain ⟨hnv, hself, hcache, hraised, hdb, hname⟩ := hp
  rcases hg : getTable sys.db sys.this key.typeName false env with ⟨db0, this0, res⟩
  rw [hg] at hnv hself hcache hraised hdb hname
  simp only at hnv hself hcache hraised hdb hname
  have hdb0 : db0 = sys.db := by
    rcases hdb with hdb | ⟨hac, _⟩
    · exact hdb
    · simp at hac
  rw [hdb0] at hg
  cases res with
  | error e =>
    have heq : (remove sys key env).result = .error e := by
      unfold remove
      simp only [hg]
    rw [heq] at h
    cases h
  | ok table =>
    rcases hname table rfl with ⟨ht, _, _⟩ | ⟨ht, _, hthis, hnc, hnot⟩
    · subst ht
      by_cases htx : env.failAt = some Step.transaction
      · have heq : (remove sys key env).result = .error (.localStore .transaction) := by
          unfold remove
          simp only [hg, tableNameFor_isEmpty, Bool.false_eq_true, if_false, htx, if_true]
        rw [heq] at h
        cases h
      · rcases hs : removeTransaction sys.db sys.fs (tableNameFor key.typeName) key env
          with ⟨fs1, r⟩
        cases r with
        | error e =>
          have heq : (remove sys key env).result = .error e := by
            unfold remove
            simp only [hg, tableNameFor_isEmpty, Bool.false_eq_true, if_false, htx, hs]
          rw [heq] at h
          cases h
        | ok p =>
          obtain ⟨db1, b1⟩ := p
          obtain ⟨rs, hrs, hcase⟩ := removeTransaction_ok sys.db db1 sys.fs fs1 _ key env b1 hs
          rcases hcase with ⟨hb1, row, hfind, hdb1, hrem⟩ | ⟨hb1, hfind, hdb1, hfs1⟩
          · subst hb1
            have heq : remove sys key env =
                ⟨{ db := sys.db.setRows (tableNameFor key.typeName)
                      (rs.filter (fun r => r.key ≠ key.id)),
                   fs := fs1,
                   this := { this0 with dataCache := this0.dataCache.remove key,
                                        raised := this0.raised ++ [Signal.dataChanged key true] },
                   others := sys.others.map (onDataChange sys.this.self key [] 0) },
                  .ok true⟩ := by
              unfold remove
              simp only [hg, tableNameFor_isEmpty, Bool.false_eq_true, if_false, htx, hs,
                onDataChange, ne_eq, not_true_eq_false, hself, hdb1]
            rw [heq] at h ⊢
            cases h
            exact Or.inr ⟨rfl, rs, row, this0, fs1, hrs, hfind, hrem, hnv, hself, hcache,
              hraised, rfl⟩
          · subst hb1
            have heq : remove sys key env =
                ⟨{ sys with db := db1, fs := fs1, this := this0 }, .ok false⟩ := by
              unfold remove
              simp only [hg, tableNameFor_isEmpty, Bool.false_eq_true, if_false, htx, hs]
            rw [heq] at h ⊢
            cases h
            refine Or.inl ⟨rfl, ?_, hdb1, hfs1, hcache⟩
            unfold Database.record
            rw [hrs, Option.some_bind, hfind]
    · subst ht
      have heq : remove sys key env = ⟨{ sys with db := sys.db, this := this0 }, .ok false⟩ := by
        unfold remove
        simp only [hg, List.isEmpty_nil, if_true]
      rw [heq] at h ⊢
      cases h
      refine Or.inl ⟨rfl, ?_, rfl, rfl, hcache⟩
      unfold Database.record
      rw [(rows_eq_none_iff _ _).2 hnot]
      rfl
theorem contains_remove (c : QCache) (key : ObjectKey) : (c.remove key).contains key = false := by
  unfold QCache.remove QCache.contains
  rw [List.any_eq_false]
  intro e he
  simp only [List.mem_filter] at he
  simpa using he.2

theorem lookup_filter_ne {α β : Type} [BEq α] [LawfulBEq α] [DecidableEq α]
    (m : List (α × β)) (k : α) :
    (m.filter (fun f => f.1 ≠ k)).lookup k = none := by
  rw [lookup_eq_none_iff]
  intro hmem
  simp only [List.mem_map, List.mem_filter] at hmem
  obtain ⟨e, ⟨_, he⟩, hk⟩ := hmem
  simp [hk] at he

theorem fileExists_remove (fs fs2 : FileSystem) (t n : List Char)
    (h : fs.remove t n = some fs2) : fs2.fileExists t n = false := by
  unfold FileSystem.remove at h
  split at h
  · simp only [Option.some.injEq] at h
    subst h
    unfold FileSystem.fileExists FileSystem.read
    simp only
    rw [lookup_filter_ne]
    rfl
  · cases h

theorem count_of_rows (sys : System) (t : List Nat) (env : Env) (rs : List Row)
    (hn : sys.this.NamesValid) (hcalm : env.failAt = none)
    (hrs : sys.db.rows (tableNameFor t) = some rs) :
    (count sys t env).result = .ok (intToQuint64 (variantToInt rs.length)) := by
  have hex : tableNameFor t ∈ sys.db.tableNames := by
    rw [← rows_isSome_iff, hrs]; rfl
  have hg : ∃ this0, getTable sys.db sys.this t false env
      = (sys.db, this0, .ok (tableNameFor t)) := by
    rw [getTable_eq _ _ _ _ _ hn]
    by_cases h1 : hashContains sys.this.tableNameCache t = true
    · rw [if_pos h1]; exact ⟨_, rfl⟩
    · rw [if_neg h1, if_pos hex]; exact ⟨_, rfl⟩
  obtain ⟨this0, hg⟩ := hg
  unfold count
  simp only [hg, tableNameFor_isEmpty, Bool.false_eq_true, if_false, hcalm, hrs]
  simp

theorem filter_key_length (rs : List Row) (row : Row) (hnd : (rs.map Row.key).Nodup)
    (hmem : row ∈ rs) : (rs.filter (fun r => r.key ≠ row.key)).length + 1 = rs.length := by
  induction rs with
  | nil => simp at hmem
  | cons a rs ih =>
    simp only [List.map_cons, List.nodup_cons] at hnd
    rcases List.mem_cons.1 hmem with h | h
    · subst h
      have hall : rs.filter (fun r => r.key ≠ row.key) = rs := by
        rw [List.filter_eq_self]
        intro r hr
        have : r.key ≠ row.key := by
          intro hh
          apply hnd.1
          rw [← hh]
          exact List.mem_map_of_mem _ hr
        simpa using this
      rw [List.filter_cons_of_neg (by simp), hall]
      rfl
    · have hne : a.key ≠ row.key := by
        intro hh
        apply hnd.1
        rw [hh]
        exact List.mem_map_of_mem _ h
      have := ih hnd.2 h
      rw [List.filter_cons_of_pos (by simpa using hne), List.length_cons, List.length_cons, this]

theorem namesValid_of_cache_eq (a b : LocalStore) (h : a.tableNameCache = b.tableNameCache)
    (hb : b.NamesValid) : a.NamesValid := by
  intro e he
  rw [h] at he
  exact hb e he
theorem countValue_small (n : Nat) (h : n < 2 ^ 31) :
    intToQuint64 (variantToInt n) = n := by
  unfold intToQuint64 variantToInt
  have h1 : (n + 2 ^ 31) % 2 ^ 32 = n + 2 ^ 31 := Nat.mod_eq_of_lt (by omega)
  rw [h1]
  have h2 : (((n + 2 ^ 31 : Nat) : Int) - 2 ^ 31) = (n : Int) := by push_cast; ring
  rw [h2]
  have h3 : (n : Int) % 2 ^ 64 = (n : Int) := Int.emod_eq_of_lt (by omega) (by omega)
  rw [h3]
  simp

/-- A `remove` in a calm environment returns true when the key has a record whose blob file
exists. -/
theorem remove_returns_true (sys : System) (key : ObjectKey) (env : Env) (rs : List Row)
    (row : Row) (hn : sys.this.NamesValid) (hcalm : env.failAt = none)
    (hrs : sys.db.rows (tableNameFor key.typeName) = some rs)
    (hfind : rs.find? (fun r => r.key = key.id) = some row)
    (hfile : sys.fs.fileExists (tableNameFor key.typeName) (row.file ++ dotDat) = true) :
    (remove sys key env).result = .ok true := by
  have hex : tableNameFor key.typeName ∈ sys.db.tableNames := by
    rw [← rows_isSome_iff, hrs]; rfl
  have hg : ∃ this0, getTable sys.db sys.this key.typeName false env
      = (sys.db, this0, .ok (tableNameFor key.typeName)) := by
    rw [getTable_eq _ _ _ _ _ hn]
    by_cases h1 : hashContains sys.this.tableNameCache key.typeName = true
    · rw [if_pos h1]; exact ⟨_, rfl⟩
    · rw [if_neg h1, if_pos hex]; exact ⟨_, rfl⟩
  obtain ⟨this0, hg⟩ := hg
  have hfile2 : (sys.fs.mkpath (tableNameFor key.typeName)).fileExists
      (tableNameFor key.typeName) (row.file ++ dotDat) = true := hfile
  have htx : removeTransaction sys.db sys.fs (tableNameFor key.typeName) key env
      = ({ sys.fs.mkpath (tableNameFor key.typeName) with
            files := (sys.fs.mkpath (tableNameFor key.typeName)).files.filter
              (fun f => f.1 ≠ (tableNameFor key.typeName, row.file ++ dotDat)) },
          .ok (sys.db.setRows (tableNameFor key.typeName)
            (rs.filter (fun r => r.key ≠ key.id)), true)) := by
    unfold removeTransaction
    simp only [hcalm, Database.selectByKey, hrs, Option.map_some', head?_filter_eq_find?,
      hfind, Database.deleteRow, typeDirectory, FileSystem.remove]
    simp only [if_false, reduceCtorEq]
    rw [if_pos hfile2]
  unfold remove
  simp only [hg, tableNameFor_isEmpty, Bool.false_eq_true, if_false, hcalm, htx]
  simp
theorem range_large : List.range 2147483648 = 0 :: (List.range 2147483647).map Nat.succ :=
  List.range_succ_eq_map 2147483647

theorem rows_singleton (t : List Char) (rs : List Row) :
    ({ tables := [(t, rs)] } : Database).rows t = some rs := by
  simp [Database.rows, List.lookup]

theorem largeStore_rows :
    largeStore.db.rows (tableNameFor keyK.typeName)
      = some ((List.range 2147483648).map largeRow) := by
  exact rows_singleton _ _

theorem largeStore_find :
    ((List.range 2147483648).map largeRow).find? (fun r => r.key = keyK.id)
      = some (largeRow 0) := by
  rw [range_large, List.map_cons, List.find?_cons_of_pos]
  simp [largeRow, keyK]

theorem largeStore_file :
    largeStore.fs.fileExists (tableNameFor keyK.typeName) ((largeRow 0).file ++ dotDat)
      = true := by
  unfold FileSystem.fileExists FileSystem.read largeStore
  simp only [range_large, List.map_cons, List.lookup_cons]
  simp [keyK]

theorem largeStore_keys_nodup : (((List.range 2147483648).map largeRow).map Row.key).Nodup := by
  rw [List.map_map]
  apply List.Nodup.map _ (List.nodup_range _)
  intro a b hab
  have := congrArg List.length hab
  simpa [largeRow] using this

/-! ## Lemmas on `find` -/

theorem likeMatch_translate (likeEq : Char → Char → Bool) (p : List Char) :
    ∀ s, likeMatch likeEq (replaceChar '?' '_' (replaceChar '*' '%' p)) s
      = globLikeMatch likeEq p s := by
  induction p with
  | nil => intro s; rfl
  | cons c p ih =>
    intro s
    have ihf : likeMatch likeEq (replaceChar '?' '_' (replaceChar '*' '%' p))
        = globLikeMatch likeEq p := funext ih
    simp only [replaceChar, List.map_cons, List.map_map] at ihf ⊢
    unfold likeMatch globLikeMatch
    rw [ihf]
    by_cases h1 : c = '*'
    · subst h1
      simp
    · by_cases h2 : c = '%'
      · subst h2
        simp
      · by_cases h3 : c = '?'
        · subst h3
          cases s <;> simp
        · have e1 : (if (if c = '*' then '%' else c) = '?' then '_' else
              (if c = '*' then '%' else c)) = c := by
            simp [h1, h3]
          rw [e1]
          simp only [h1, h2, h3, or_self, if_false, decide_False, Bool.false_or]

theorem storedDocument_mkpath (qt : Qt) (fs : FileSystem) (d table : List Char) (r : Row) :
    storedDocument qt (fs.mkpath d) table r = storedDocument qt fs table r := rfl

theorem readJson_ok (qt : Qt) (fs fs1 : FileSystem) (table file : List Char) (env : Env)
    (json : QJsonObject) (size : Int)
    (h : readJson qt fs table file env = (fs1, .ok (json, size))) :
    fs1 = fs.mkpath table ∧
      (fs.read table (file ++ dotDat)).bind qt.fromBinaryData = some json := by
  unfold readJson typeDirectory at h
  by_cases hm : env.failAt = some Step.mkpath
  · simp [hm] at h
  · simp only [hm, if_false] at h
    split at h
    · simp at h
    · have e : (fs.mkpath table).read table (file ++ dotDat) = fs.read table (file ++ dotDat) :=
        rfl
      rw [e] at h
      cases hr : fs.read table (file ++ dotDat) with
      | none => simp [hr] at h
      | some bytes =>
        simp only [hr] at h
        cases hp : qt.fromBinaryData bytes with
        | none => simp [hp] at h
        | some j =>
          simp only [hp, Prod.mk.injEq, Except.ok.injEq] at h
          refine ⟨h.1.symm, ?_⟩
          simp [hp, h.2.1]

theorem readRows_ok (qt : Qt) (typeName : List Nat) (table : List Char) (env : Env) (rows : List Row) :
    ∀ (fs fs2 : FileSystem) (cache cache2 : QCache) (docs : List QJsonObject),
      readRows qt typeName table env rows fs cache = (fs2, cache2, .ok docs) →
      docs.map some = rows.map (storedDocument qt fs table) := by
  induction rows with
  | nil =>
    intro fs fs2 cache cache2 docs h
    simp only [readRows, Prod.mk.injEq, Except.ok.injEq] at h
    rw [← h.2.2]
    rfl
  | cons r rs ih =>
    intro fs fs2 cache cache2 docs h
    unfold readRows at h
    rcases hj : readJson qt fs table r.file env with ⟨fs1, res⟩
    cases res with
    | error e => simp [hj] at h
    | ok p =>
      obtain ⟨json, size⟩ := p
      simp only [hj] at h
      obtain ⟨hfs1, hdoc⟩ := readJson_ok qt fs fs1 table r.file env json size hj
      rcases hrest : readRows qt typeName table env rs fs1
          (cache.insert { typeName := typeName, id := r.key } json size) with ⟨fs3, c3, res3⟩
      cases res3 with
      | error e => simp [hrest] at h
      | ok docs3 =>
        simp only [hrest, Prod.mk.injEq, Except.ok.injEq] at h
        have := ih fs1 fs3 _ c3 docs3 hrest
        rw [← h.2.2, List.map_cons, List.map_cons, this, hfs1]
        congr 1
        exact hdoc.symm
theorem anySuffix_const_true (s : List Char) : anySuffix (fun _ => true) s = true := by
  cases s <;> simp [anySuffix]

theorem globLike_star (likeEq : Char → Char → Bool)
    (hexact : ∀ a b, likeEq a b = decide (a = b)) (s : List Char) :
    globLikeMatch likeEq "a*".toList s = true ↔ s.head? = some 'a' := by
  have e : "a*".toList = ['a', '*'] := rfl
  rw [e]
  have hnil : globLikeMatch likeEq [] = fun s => s.isEmpty := by
    funext s; rfl
  have hstar : ∀ s, globLikeMatch likeEq ['*'] s = true := by
    intro s
    unfold globLikeMatch
    simp only [true_or, if_true, hnil]
    induction s with
    | nil => rfl
    | cons c s ih => simp [anySuffix, ih]
  unfold globLikeMatch
  cases s with
  | nil => simp
  | cons d s =>
    simp only [hstar, hexact, Bool.and_true]
    simp
    exact eq_comm

theorem globLike_a_any_c (likeEq : Char → Char → Bool)
    (hexact : ∀ a b, likeEq a b = decide (a = b)) (s : List Char) :
    globLikeMatch likeEq "a?c".toList s = true ↔ ∃ x, s = ['a', x, 'c'] := by
  have e : "a?c".toList = ['a', '?', 'c'] := rfl
  rw [e]
  cases s with
  | nil => simp [globLikeMatch]
  | cons d1 s =>
    cases s with
    | nil => simp [globLikeMatch, hexact]
    | cons d2 s =>
      cases s with
      | nil => simp [globLikeMatch, hexact]
      | cons d3 s =>
        cases s with
        | nil =>
          simp [globLikeMatch, hexact]
          constructor
          · rintro ⟨h1, h2⟩
            exact ⟨h1.symm, h2.symm⟩
          · rintro ⟨h1, h2⟩
            exact ⟨h1.symm, h2.symm⟩
        | cons d4 s => simp [globLikeMatch, hexact]

/-! ## Lemmas on the object cache and `onDataChange` -/

theorem contains_insert_of_gt (c : QCache) (key : ObjectKey) (obj : QJsonObject) (cost : Int)
    (h : cost > c.mx) : (c.insert key obj cost).contains key = false := by
  unfold QCache.insert
  have e : (c.remove key).mx = c.mx := rfl
  simp only [e, h, if_true]
  exact contains_remove c key

theorem object_insert_of_le (c : QCache) (key : ObjectKey) (obj : QJsonObject) (cost : Int)
    (h : cost ≤ c.mx) : ((c.insert key obj cost).object key).2 = some obj := by
  unfold QCache.insert
  have e : (c.remove key).mx = c.mx := rfl
  have h2 : ¬ cost > c.mx := by omega
  simp only [e, h2, if_false]
  unfold QCache.object
  simp

theorem load_of_cached (qt : Qt) (sys : System) (key : ObjectKey) (env : Env) (d : QJsonObject)
    (h : (sys.this.dataCache.object key).2 = some d) :
    (load qt sys key env).result = .ok d := by
  unfold load
  rcases ho : sys.this.dataCache.object key with ⟨c, o⟩
  rw [ho] at h
  simp only at h
  subst h
  rfl

theorem onDataChange_namesValid (origin : Nat) (key : ObjectKey) (data : QJsonObject)
    (size : Int) (this : LocalStore) (hn : this.NamesValid) :
    (onDataChange origin key data size this).NamesValid := by
  unfold onDataChange
  split
  · exact hn
  · exact hn


/-- A load whose key is in the object cache returns the cached document and leaves database
and files alone, whatever they are and whatever the environment does. -/
theorem load_of_cached_store (qt : Qt) (sys : System) (key : ObjectKey) (env : Env)
    (d : QJsonObject) (h : (sys.this.dataCache.object key).2 = some d) :
    (load qt sys key env).result = .ok d ∧ (load qt sys key env).sys.db = sys.db ∧
      (load qt sys key env).sys.fs = sys.fs := by
  unfold load
  rcases ho : sys.this.dataCache.object key with ⟨c, o⟩
  rw [ho] at h
  simp only at h
  subst h
  exact ⟨rfl, rfl, rfl⟩

/-! ## Lemmas on `clear` and `reset` -/

theorem hashContains_hashRemove (m : List (List Nat × List Char)) (k : List Nat) :
    hashContains (hashRemove m k) k = false := by
  unfold hashContains hashRemove
  rw [lookup_filter_ne]
  rfl

theorem onDataReset_namesValid (origin : Nat) (t : Option (List Nat)) (this : LocalStore)
    (hn : this.NamesValid) : (onDataReset origin t this).NamesValid := by
  unfold onDataReset
  cases t with
  | none =>
    simp only
    split <;> (intro e he; simp at he)
  | some t =>
    simp only
    split <;>
    · intro e he
      simp only [hashRemove, List.mem_filter] at he
      exact hn e he.1

theorem count_of_absent (sys : System) (t : List Nat) (env : Env)
    (hc : hashContains sys.this.tableNameCache t = false)
    (hnot : tableNameFor t ∉ sys.db.tableNames) :
    (count sys t env).result = .ok 0 := by
  unfold count getTable
  simp [hc, hnot, hashValue_of_not_contains _ _ hc]

theorem keys_of_absent (sys : System) (t : List Nat) (env : Env)
    (hc : hashContains sys.this.tableNameCache t = false)
    (hnot : tableNameFor t ∉ sys.db.tableNames) :
    (keys sys t env).result = .ok [] := by
  unfold keys getTable
  simp [hc, hnot, hashValue_of_not_contains _ _ hc]

/-- What a successful `clear` of a type whose table exists did. -/
theorem clear_ok (sys : System) (typeName : List Nat) (env : Env)
    (hn : sys.this.NamesValid) (hex : tableNameFor typeName ∈ sys.db.tableNames)
    (h : (clear sys typeName env).result = .ok ()) :
    ∃ this0 : LocalStore, this0.NamesValid ∧ this0.self = sys.this.self ∧
      clear sys typeName env =
        ⟨{ db := { tables := sys.db.tables.filter (fun t => t.1 ≠ tableNameFor typeName) },
           fs := (sys.fs.mkpath (tableNameFor typeName)).removeDir (tableNameFor typeName),
           this := { onDataReset this0.self (some typeName) this0 with
             raised := (onDataReset this0.self (some typeName) this0).raised
               ++ [Signal.dataCleared typeName] },
           others := sys.others.map (onDataReset this0.self (some typeName)) }, .ok ()⟩ := by
  have hp := getTable_props sys.db sys.this typeName false env hn
  obtain ⟨hnv, hself, _, _, _, _⟩ := hp
  have hg : ∃ this0, getTable sys.db sys.this typeName false env
      = (sys.db, this0, .ok (tableNameFor typeName)) := by
    rw [getTable_eq _ _ _ _ _ hn]
    by_cases h1 : hashContains sys.this.tableNameCache typeName = true
    · rw [if_pos h1]; exact ⟨_, rfl⟩
    · rw [if_neg h1, if_pos hex]; exact ⟨_, rfl⟩
  obtain ⟨this0, hg⟩ := hg
  rw [hg] at hnv hself
  refine ⟨this0, hnv, hself, ?_⟩
  unfold clear at h ⊢
  simp only [hg, tableNameFor_isEmpty, Bool.false_eq_true, if_false] at h ⊢
  by_cases hs : env.failAt = some Step.statement
  · simp [hs] at h
  · simp only [hs, if_false, Database.dropTable, hex, if_true, typeDirectory] at h ⊢
    by_cases hm : env.failAt = some Step.mkpath
    · simp [hm] at h
    · simp only [hm, if_false] at h ⊢
      by_cases hr : env.failAt = some Step.removeDir
      · simp [hr] at h
      · simp only [hr, if_false]

theorem rows_filter_ne (db : Database) (t : List Char) :
    ({ tables := db.tables.filter (fun e => e.1 ≠ t) } : Database).rows t = none := by
  unfold Database.rows
  exact lookup_filter_ne db.tables t

theorem onDataReset_some_cache (origin : Nat) (t : List Nat) (this : LocalStore) :
    hashContains (onDataReset origin (some t) this).tableNameCache t = false ∧
    ∀ e ∈ (onDataReset origin (some t) this).dataCache.entries, e.key.typeName ≠ t := by
  unfold onDataReset
  simp only
  split
  · refine ⟨hashContains_hashRemove _ _, ?_⟩
    intro e he
    simp only [List.mem_filter] at he
    simpa using he.2
  · refine ⟨hashContains_hashRemove _ _, ?_⟩
    intro e he
    simp only [List.mem_filter] at he
    simpa using he.2

theorem dropManaged_ok (env : Env) (ts : List (List Char)) :
    ∀ (db db1 : Database), dropManaged env ts db = .ok db1 →
      (∀ x ∈ db1.tables, x ∈ db.tables) ∧
      (∀ x ∈ db1.tables, x.1 ∈ ts → "data_".toList.isPrefixOf x.1 = false) := by
  induction ts with
  | nil =>
    intro db db1 h
    simp only [dropManaged, Except.ok.injEq] at h
    subst h
    exact ⟨fun x hx => hx, fun x _ hx => by simp at hx⟩
  | cons t ts ih =>
    intro db db1 h
    unfold dropManaged at h
    by_cases hp : "data_".toList.isPrefixOf t = true
    · rw [if_pos hp] at h
      by_cases hs : env.failAt = some Step.statement
      · simp [hs] at h
      · rw [if_neg hs] at h
        unfold Database.dropTable at h
        by_cases hmem : t ∈ db.tableNames
        · simp only [hmem, if_true] at h
          obtain ⟨h1, h2⟩ := ih _ db1 h
          refine ⟨fun x hx => (List.mem_filter.1 (h1 x hx)).1, ?_⟩
          intro x hx hxt
          rcases List.mem_cons.1 hxt with hxt | hxt
          · have := (List.mem_filter.1 (h1 x hx)).2
            simp [hxt] at this
          · exact h2 x hx hxt
        · simp [hmem] at h
    · rw [if_neg hp] at h
      obtain ⟨h1, h2⟩ := ih db db1 h
      refine ⟨h1, ?_⟩
      intro x hx hxt
      rcases List.mem_cons.1 hxt with hxt | hxt
      · rw [hxt]
        exact Bool.eq_false_iff.2 hp
      · exact h2 x hx hxt

/-! ## The claims -/

/-! ### C1 -/

/-- Counterexample to C1 as stated, update path: from a consistent store holding `docA`
under `keyK`, a `save(keyK, docB)` whose blob commit succeeds and whose index commit is
refused leaves the record of `keyK` with the checksum of `docA` and a blob holding `docB`. -/
theorem save_commit_failure_stale_checksum :
    savedOnce.this.NamesValid ∧ savedOnce.db.WellFormed ∧
    Consistent demoQt savedOnce.db savedOnce.fs ∧
    (LocalStore.save demoQt savedOnce keyK docB (envFail Step.commit "f2")).result
      = .error (.localStore .commit) ∧
    ((LocalStore.save demoQt savedOnce keyK docB (envFail Step.commit "f2")).sys.db.record
        keyK).map Row.checksum = some (toHex (demoDigest (demoToBinaryData docA))) ∧
    (LocalStore.save demoQt savedOnce keyK docB (envFail Step.commit "f2")).sys.fs.read
        (tableNameFor keyK.typeName) ("f1".toList ++ dotDat) = some (demoToBinaryData docB) ∧
    toHex (demoDigest (demoToBinaryData docA)) ≠ toHex (demoDigest (demoToBinaryData docB)) ∧
    ¬ Consistent demoQt
      (LocalStore.save demoQt savedOnce keyK docB (envFail Step.commit "f2")).sys.db
      (LocalStore.save demoQt savedOnce keyK docB (envFail Step.commit "f2")).sys.fs := by
  decide

/-- C1 (amended). If during `save(key, data)` the blob file commit succeeds and the index
commit is refused, so that the transaction is rolled back: every table has the rows it had
before the call; every index record still references an existing blob file; every index
record other than the one of `key` still has a blob whose digest equals its `Checksum`;
when `key` had no record (insert path) the store is consistent and exactly one file was
added, which no index record references; when `key` had a record (update path) no file was
added, and the blob of that record holds the new content while the record keeps the
`Checksum` and `Version` of the old one. -/
theorem save_commit_failure (qt : Qt) (sys : System) (key : ObjectKey) (data : QJsonObject)
    (env : Env) (hn : sys.this.NamesValid) (hwf : sys.db.WellFormed)
    (hc : Consistent qt sys.db sys.fs)
    (h : (LocalStore.save qt sys key data env).result = .error (.localStore .commit)) :
    (∀ t, ((LocalStore.save qt sys key data env).sys.db.rows t).getD []
        = (sys.db.rows t).getD []) ∧
    (∀ t ∈ (LocalStore.save qt sys key data env).sys.db.tables, ∀ r ∈ t.2,
        r.BlobExists (LocalStore.save qt sys key data env).sys.fs t.1) ∧
    (∀ t ∈ (LocalStore.save qt sys key data env).sys.db.tables, ∀ r ∈ t.2,
        (t.1 ≠ tableNameFor key.typeName ∨ r.key ≠ key.id) →
        r.BlobMatches qt (LocalStore.save qt sys key data env).sys.fs t.1) ∧
    (sys.db.record key = none →
        Consistent qt (LocalStore.save qt sys key data env).sys.db
          (LocalStore.save qt sys key data env).sys.fs ∧
        (LocalStore.save qt sys key data env).sys.fs.files = sys.fs.files ++
          [((tableNameFor key.typeName, env.tempName ++ dotDat), qt.toBinaryData data)] ∧
        Unreferenced (LocalStore.save qt sys key data env).sys.db
          ((tableNameFor key.typeName, env.tempName ++ dotDat), qt.toBinaryData data)) ∧
    (∀ row, sys.db.record key = some row →
        (LocalStore.save qt sys key data env).sys.fs.files.map Prod.fst
          = sys.fs.files.map Prod.fst ∧
        (LocalStore.save qt sys key data env).sys.fs.read (tableNameFor key.typeName)
          (row.file ++ dotDat) = some (qt.toBinaryData data) ∧
        (LocalStore.save qt sys key data env).sys.db.record key = some row) := by
  obtain ⟨db0, this0, fs1, hg, hs, hsys⟩ := save_commit_error qt sys key data env hn h
  obtain ⟨_, _, _, _, hdb, _⟩ := getTable_props sys.db sys.this key.typeName true env hn
  rw [hg] at hdb
  replace hdb : db0 = sys.db ∨ (tableNameFor key.typeName ∉ sys.db.tableNames ∧
      db0 = { tables := sys.db.tables ++ [(tableNameFor key.typeName, [])] }) :=
    hdb.imp id (fun x => x.2)
  have hcm : ∀ t ∈ sys.db.tables, ∀ r ∈ t.2,
      r.BlobMatches qt (sys.fs.mkpath (tableNameFor key.typeName)) t.1 := hc
  obtain ⟨rs, hrs, hcase⟩ := saveTransaction_commit_error qt db0 _ fs1 _ key data env hs
  have hrec := record_before sys.db db0 key rs hdb hrs
  rw [hsys]
  simp only
  -- every table of `db0` is a table of the old database or the new empty table
  have htab : ∀ t ∈ db0.tables, t ∈ sys.db.tables ∨ t.2 = [] := by
    intro t ht
    rcases hdb with hdb | ⟨_, hdb⟩
    · exact Or.inl (hdb ▸ ht)
    · rw [hdb] at ht
      simp only [List.mem_append, List.mem_singleton] at ht
      rcases ht with ht | ht
      · exact Or.inl ht
      · exact Or.inr (by rw [ht])
  have hrows : ∀ t, (db0.rows t).getD [] = (sys.db.rows t).getD [] := by
    intro t
    rcases hdb with hdb | ⟨hnot, hdb⟩
    · rw [hdb]
    · rw [hdb, rows_append_new _ _ _ hnot]
      by_cases ht : t = tableNameFor key.typeName
      · rw [if_pos ht, ht, (rows_eq_none_iff _ _).2 hnot]
        rfl
      · rw [if_neg ht]
  -- the written path differs from the path of every record that is not the one of `key`
  have hother : ∀ t ∈ sys.db.tables, ∀ r ∈ t.2,
      (t.1 ≠ tableNameFor key.typeName ∨ r.key ≠ key.id) →
      r.BlobMatches qt fs1 t.1 := by
    intro t ht r hr hor
    have hm := hcm t ht r hr
    rcases hcase with ⟨row, hfind, hfs1⟩ | ⟨hfind, hfresh, hfs1⟩
    · rw [hfs1]
      apply blobMatches_write_other qt _ _ _ _ _ r hm
      intro heq
      simp only [Prod.mk.injEq] at heq
      obtain ⟨h1, h2⟩ := heq
      rcases hor with hor | hor
      · exact hor h1
      · have hfile : r.file = row.file := List.append_cancel_right h2
        have hrows2 : sys.db.rows t.1 = some t.2 := rows_of_mem sys.db hwf.1 t ht
        have hrs2 : sys.db.rows (tableNameFor key.typeName) = some rs := by
          rcases hdb with hdb | ⟨hnot, hdb⟩
          · rw [← hdb]; exact hrs
          · exfalso
            apply hnot
            rw [← h1]
            exact List.mem_map_of_mem _ ht
        rw [h1, hrs2] at hrows2
        cases hrows2
        have hrow_mem : row ∈ t.2 := List.mem_of_find?_eq_some hfind
        have hrk : row.key = key.id := by simpa using List.find?_some hfind
        have := List.inj_on_of_nodup_map (hwf.2.2 t ht) hr hrow_mem hfile
        apply hor
        rw [this, hrk]
    · rw [hfs1]
      apply blobMatches_write_other qt _ _ _ _ _ r hm
      intro heq
      have hex := blobMatches_exists qt _ t.1 r hm
      simp only [Prod.mk.injEq] at heq
      rw [heq.1, heq.2, hfresh] at hex
      exact absurd hex (by simp)
  have hfs1 : ∃ n, fs1 = (sys.fs.mkpath (tableNameFor key.typeName)).write
      (tableNameFor key.typeName) n (qt.toBinaryData data) := by
    rcases hcase with ⟨row, _, hfs1⟩ | ⟨_, _, hfs1⟩
    · exact ⟨_, hfs1⟩
    · exact ⟨_, hfs1⟩
  refine ⟨hrows, ?_, ?_, ?_, ?_⟩
  · intro t ht r hr
    rcases htab t ht with ht2 | ht2
    · obtain ⟨n, hn1⟩ := hfs1
      rw [hn1]
      exact blobExists_write _ _ _ _ _ r (blobMatches_exists qt _ t.1 r (hcm t ht2 r hr))
    · rw [ht2] at hr
      simp at hr
  · intro t ht r hr hor
    rcases htab t ht with ht2 | ht2
    · exact hother t ht2 r hr hor
    · rw [ht2] at hr
      simp at hr
  · intro hnone
    rw [hrec] at hnone
    rcases hcase with ⟨row, hfind, _⟩ | ⟨hfind, hfresh, hfs1e⟩
    · rw [hfind] at hnone
      cases hnone
    · have hall : ∀ t ∈ db0.tables, ∀ r ∈ t.2,
          r.BlobMatches qt fs1 t.1 ∧
            (t.1, r.file ++ dotDat) ≠ (tableNameFor key.typeName, env.tempName ++ dotDat) := by
        intro t ht r hr
        rcases htab t ht with ht2 | ht2
        · have hm := hcm t ht2 r hr
          have hne : (t.1, r.file ++ dotDat)
              ≠ (tableNameFor key.typeName, env.tempName ++ dotDat) := by
            intro heq
            have hex := blobMatches_exists qt _ t.1 r hm
            simp only [Prod.mk.injEq] at heq
            rw [heq.1, heq.2, hfresh] at hex
            exact absurd hex (by simp)
          refine ⟨?_, hne⟩
          rw [hfs1e]
          exact blobMatches_write_other qt _ _ _ _ _ r hm hne
        · rw [ht2] at hr
          simp at hr
      refine ⟨fun t ht r hr => (hall t ht r hr).1, ?_, fun t ht r hr => (hall t ht r hr).2⟩
      rw [hfs1e, files_write_new _ _ _ _ hfresh]
      rfl
  · intro row hsome
    rw [hrec] at hsome
    rcases hcase with ⟨row2, hfind, hfs1e⟩ | ⟨hfind, _, _⟩
    · rw [hfind] at hsome
      cases hsome
      have hrs2 : sys.db.rows (tableNameFor key.typeName) = some rs := by
        rcases hdb with hdb | ⟨hnot, hdb⟩
        · rw [← hdb]; exact hrs
        · rw [hdb, rows_append_new _ _ _ hnot, if_pos rfl] at hrs
          cases hrs
          simp at hfind
      have hmem := mem_tables_of_rows sys.db _ rs hrs2
      have hex := blobMatches_exists qt _ _ row
        (hcm _ hmem row (List.mem_of_find?_eq_some hfind))
      refine ⟨?_, ?_, ?_⟩
      · rw [hfs1e]
        exact files_write_names _ _ _ _ hex
      · rw [hfs1e, read_write, if_pos rfl]
      · unfold Database.record
        rw [hrs, Option.some_bind, hfind]
    · rw [hfind] at hsome
      cases hsome

/-- Witness of C1 (amended), insert path: a save of a new key whose index commit is refused
leaves the store consistent. -/
theorem save_commit_failure_witness :
    Consistent demoQt
      (LocalStore.save demoQt savedOnce { typeName := ascii "T", id := "j".toList } docB
        (envFail Step.commit "f2")).sys.db
      (LocalStore.save demoQt savedOnce { typeName := ascii "T", id := "j".toList } docB
        (envFail Step.commit "f2")).sys.fs :=
  ((save_commit_failure demoQt savedOnce { typeName := ascii "T", id := "j".toList } docB
    (envFail Step.commit "f2") (by decide) (by decide) (by decide) (by decide)).2.2.2.1
    (by decide)).1

/-! ### C2 -/

/-- C2. For every key without an index record and every `n ≥ 1`: after `n` successful
`save` calls on the key, by whatever handles, with nothing in between that changes the
index record of the key, the `Version` of the record is `n`; in particular it is 1 after
the first save, and each further save adds exactly 1. -/
theorem save_sequence_version (qt : Qt) (key : ObjectKey) (db db1 : Database) (n : Nat)
    (hfresh : db.record key = none) (hn : 1 ≤ n) (hrun : SavedTimes qt key db n db1) :
    db1.versionOf key = some n := by
  rw [savedTimes_version qt key db db1 n hrun hfresh, if_neg (by omega)]

/-- Witness of C2: two saves of one key on the empty store leave it at version 2. -/
theorem save_sequence_version_witness :
    emptySystem.db.record keyK = none ∧
    (LocalStore.save demoQt emptySystem keyK docA (envTemp "f1")).sys.db.versionOf keyK
      = some 1 ∧
    (LocalStore.save demoQt savedOnce keyK docB (envTemp "f2")).sys.db.versionOf keyK
      = some 2 :=
  ⟨by decide,
    save_sequence_version demoQt keyK emptySystem.db _ 1 (by decide) (by decide)
      (SavedTimes.save _ 0 emptySystem docA (envTemp "f1") (SavedTimes.start _)
        (by decide) (by decide)),
    save_sequence_version demoQt keyK emptySystem.db _ 2 (by decide) (by decide)
      (SavedTimes.save _ 1 savedOnce docB (envTemp "f2")
        (SavedTimes.save _ 0 emptySystem docA (envTemp "f1") (SavedTimes.start _)
          (by decide) (by decide))
        (by decide) (by decide))⟩

/-! ### C3 -/

/-- C3. After a successful `save(key, data)` of a document that survives serialisation, the
key has an index record whose `File` names a blob holding the serialised document, and a
`load(key)` by any handle that does not have the key in its object cache returns `data`,
whether the save inserted the record or replaced one. -/
theorem load_after_save (qt : Qt) (sys : System) (key : ObjectKey) (data : QJsonObject)
    (env envL : Env) (handle : LocalStore) (hn : sys.this.NamesValid)
    (hwell : qt.fromBinaryData (qt.toBinaryData data) = some data)
    (hsave : (LocalStore.save qt sys key data env).result = .ok ())
    (hn2 : handle.NamesValid) (hmiss : handle.dataCache.contains key = false)
    (hcalm : envL.failAt = none) :
    (∃ row, (LocalStore.save qt sys key data env).sys.db.record key = some row ∧
      (LocalStore.save qt sys key data env).sys.fs.read (tableNameFor key.typeName)
        (row.file ++ dotDat) = some (qt.toBinaryData data)) ∧
    (LocalStore.load qt { (LocalStore.save qt sys key data env).sys with this := handle }
      key envL).result = .ok data := by
  obtain ⟨row, hrec, _, _, _, hread, _⟩ := save_record qt sys key data env hn hsave
  exact ⟨⟨row, hrec, hread⟩,
    load_of_record qt _ key envL row _ data hn2 hmiss hcalm hrec hread hwell⟩

/-- Witness of C3: a save that inserts on the empty store, and a save that replaces the
record it left, each followed by a load by a handle of capacity 0. -/
theorem load_after_save_witness :
    (LocalStore.load demoQt
      { (LocalStore.save demoQt emptySystem keyK docA (envTemp "f1")).sys with
        this := freshHandle 3 0 } keyK Env.calm).result = .ok docA ∧
    (LocalStore.load demoQt
      { (LocalStore.save demoQt savedOnce keyK docB (envTemp "f2")).sys with
        this := freshHandle 3 0 } keyK Env.calm).result = .ok docB :=
  ⟨(load_after_save demoQt emptySystem keyK docA (envTemp "f1") Env.calm (freshHandle 3 0)
      (by decide) (by decide) (by decide) (by decide) (by decide) rfl).2,
    (load_after_save demoQt savedOnce keyK docB (envTemp "f2") Env.calm (freshHandle 3 0)
      (by decide) (by decide) (by decide) (by decide) (by decide) rfl).2⟩

/-! ### C4 -/

/-- Counterexample to C4 as stated: the type `T` has 2^31 records; `remove(keyK)` returns
true; `count` was 2^64 - 2^31 before, the 32 bit `int` of `toInt()` being negative, and is
2^31 - 1 after, which is not one less. -/
theorem remove_count_wraps :
    (largeStore.db.rows (tableNameFor keyK.typeName)).map List.length = some (2 ^ 31) ∧
    (LocalStore.remove largeStore keyK Env.calm).result = .ok true ∧
    (LocalStore.count largeStore keyK.typeName Env.calm).result
      = .ok (2 ^ 64 - 2 ^ 31) ∧
    (LocalStore.count (LocalStore.remove largeStore keyK Env.calm).sys keyK.typeName
      Env.calm).result = .ok (2 ^ 31 - 1) := by
  have hn : largeStore.this.NamesValid := by decide
  have hres := remove_returns_true largeStore keyK Env.calm _ _ hn rfl largeStore_rows
    largeStore_find largeStore_file
  refine ⟨?_, hres, ?_, ?_⟩
  · rw [largeStore_rows]
    simp only [Option.map_some', List.length_map, List.length_range]
    rfl
  · rw [count_of_rows largeStore _ Env.calm _ hn rfl largeStore_rows]
    simp only [List.length_map, List.length_range]
    rfl
  · rcases remove_ok largeStore keyK Env.calm true hn hres with
      ⟨hb, _⟩ | ⟨_, rs, row, this0, fs1, hrs, hfind, _, hnv, _, _, _, hsys⟩
    · cases hb
    · have hrs2 : rs = (List.range 2147483648).map largeRow :=
        (Option.some.inj (largeStore_rows.symm.trans hrs)).symm
      rw [hrs2] at hsys
      have hrows' : (LocalStore.remove largeStore keyK Env.calm).sys.db.rows
          (tableNameFor keyK.typeName)
          = some (((List.range 2147483648).map largeRow).filter
              (fun r => r.key ≠ keyK.id)) := by
        rw [hsys]
        simp only
        rw [rows_setRows, if_pos rfl, largeStore_rows]
        rfl
      have hnv' : (LocalStore.remove largeStore keyK Env.calm).sys.this.NamesValid := by
        rw [hsys]
        exact namesValid_of_cache_eq _ this0 rfl hnv
      rw [count_of_rows _ _ Env.calm _ hnv' rfl hrows']
      have hlen := filter_key_length _ (largeRow 0) largeStore_keys_nodup
        (List.mem_of_find?_eq_some largeStore_find)
      simp only [List.length_map, List.length_range] at hlen
      have hk : (largeRow 0).key = keyK.id := rfl
      rw [hk] at hlen
      have hlen2 : (((List.range 2147483648).map largeRow).filter
          (fun r => r.key ≠ keyK.id)).length = 2147483647 := by omega
      rw [hlen2]
      rfl

/-- C4 (amended). A `remove(key)` that returns, returns true exactly when the key had an
index record. When it returns true, the record, its blob file and the cache entry of the
calling handle are gone, a following `load(key)` throws `NoDataException`, and, when the
type had fewer than 2^31 records, `count` of the type is one less than before. When it
returns false, the database, the files and the object cache of the calling handle are
unchanged. -/
theorem remove_spec (qt : Qt) (sys : System) (key : ObjectKey) (env : Env) (b : Bool)
    (hn : sys.this.NamesValid) (hwf : sys.db.WellFormed)
    (h : (LocalStore.remove sys key env).result = .ok b) :
    (b = true ↔ (sys.db.record key).isSome = true) ∧
    (b = true →
      (LocalStore.remove sys key env).sys.db.record key = none ∧
      (∀ row, sys.db.record key = some row →
        (LocalStore.remove sys key env).sys.fs.fileExists (tableNameFor key.typeName)
          (row.file ++ dotDat) = false) ∧
      (LocalStore.remove sys key env).sys.this.dataCache.contains key = false ∧
      (∀ envL : Env, envL.failAt = none →
        (LocalStore.load qt (LocalStore.remove sys key env).sys key envL).result
          = .error (.noData key)) ∧
      (∀ rs, sys.db.rows (tableNameFor key.typeName) = some rs → rs.length < 2 ^ 31 →
        ∀ e1 e2 : Env, e1.failAt = none → e2.failAt = none →
        ∃ n, (LocalStore.count (LocalStore.remove sys key env).sys key.typeName e1).result
              = .ok n ∧
          (LocalStore.count sys key.typeName e2).result = .ok (n + 1))) ∧
    (b = false →
      (LocalStore.remove sys key env).sys.db = sys.db ∧
      (LocalStore.remove sys key env).sys.fs = sys.fs ∧
      (LocalStore.remove sys key env).sys.this.dataCache = sys.this.dataCache) := by
  rcases remove_ok sys key env b hn h with
    ⟨hb, hrec, hdb, hfs, hcache⟩ |
    ⟨hb, rs, row, this0, fs1, hrs, hfind, hrem, hnv, hself, hc0, hr0, hsys⟩
  · subst hb
    refine ⟨?_, ?_, fun _ => ⟨hdb, hfs, hcache⟩⟩
    · rw [hrec]; simp
    · intro hh; cases hh
  · subst hb
    have hrec : sys.db.record key = some row := by
      unfold Database.record
      rw [hrs, Option.some_bind, hfind]
    have hrows' : (LocalStore.remove sys key env).sys.db.rows (tableNameFor key.typeName)
        = some (rs.filter (fun r => r.key ≠ key.id)) := by
      rw [hsys]
      simp only
      rw [rows_setRows, if_pos rfl, hrs]
      rfl
    have hrec' : (LocalStore.remove sys key env).sys.db.record key = none := by
      unfold Database.record
      rw [hrows', Option.some_bind, List.find?_eq_none]
      intro r hr
      simp only [List.mem_filter] at hr
      simpa using hr.2
    have hnv' : (LocalStore.remove sys key env).sys.this.NamesValid := by
      rw [hsys]
      exact namesValid_of_cache_eq _ this0 rfl hnv
    have hmiss : (LocalStore.remove sys key env).sys.this.dataCache.contains key = false := by
      rw [hsys]
      exact contains_remove _ _
    have hex' : tableNameFor key.typeName ∈ (LocalStore.remove sys key env).sys.db.tableNames := by
      rw [← rows_isSome_iff, hrows']; rfl
    refine ⟨?_, fun _ => ⟨hrec', ?_, hmiss, ?_, ?_⟩, ?_⟩
    · rw [hrec]; simp
    · intro row2 hrow2
      rw [hrec] at hrow2
      cases hrow2
      rw [hsys]
      exact fileExists_remove _ _ _ _ hrem
    · intro envL hcalm
      exact load_of_no_record qt _ key envL hnv' hmiss hcalm hex' hrec'
    · intro rs2 hrs2 hbound e1 e2 h1 h2
      rw [hrs] at hrs2
      cases hrs2
      have hmem := mem_tables_of_rows sys.db _ rs hrs
      have hrk : row.key = key.id := by simpa using List.find?_some hfind
      have hlen := filter_key_length rs row (hwf.2.1 _ hmem) (List.mem_of_find?_eq_some hfind)
      rw [hrk] at hlen
      refine ⟨_, count_of_rows _ _ e1 _ hnv' h1 hrows', ?_⟩
      rw [count_of_rows sys _ e2 rs hn h2 hrs, countValue_small _ hbound,
        countValue_small _ (by omega), hlen]
    · intro hh; cases hh

/-- Witness of C4 (amended): removing the one saved key returns true and takes `count`
from 1 to 0. -/
theorem remove_spec_witness :
    (LocalStore.remove savedOnce keyK Env.calm).result = .ok true ∧
    (savedOnce.db.record keyK).isSome = true ∧
    (LocalStore.count savedOnce keyK.typeName Env.calm).result = .ok 1 ∧
    ∃ n, (LocalStore.count (LocalStore.remove savedOnce keyK Env.calm).sys keyK.typeName
        Env.calm).result = .ok n ∧
      (LocalStore.count savedOnce keyK.typeName Env.calm).result = .ok (n + 1) :=
  ⟨by decide,
    (remove_spec demoQt savedOnce keyK Env.calm true (by decide) (by decide)
      (by decide)).1.1 rfl,
    by decide,
    ((remove_spec demoQt savedOnce keyK Env.calm true (by decide) (by decide)
      (by decide)).2.1 rfl).2.2.2.2
      [{ key := "k".toList, version := 1, file := "f1".toList,
         checksum := toHex (demoDigest (demoToBinaryData docA)) }]
      (by decide) (by decide) Env.calm Env.calm rfl rfl⟩

/-! ### C5 -/

/-- Counterexample to C5 as stated: with a case-sensitive `LIKE`, `find("T", "a_c")` returns
the document stored under the id `abc`, which the pattern `a_c` does not match as a glob
in which `_` stands for itself. -/
theorem find_underscore_is_wildcard :
    savedAbc.db.tableNames = [tableNameFor (ascii "T")] ∧
    (LocalStore.keys savedAbc (ascii "T") Env.calm).result = .ok ["abc".toList] ∧
    globMatch "a_c".toList "abc".toList = false ∧
    (LocalStore.find demoQt savedAbc (ascii "T") "a_c".toList Env.calm).result = .ok [docA] := by
  decide

/-- C5 (amended). For a type whose table exists, a `find(type, pattern)` that returns,
returns the stored documents of exactly the rows whose id matches the pattern as a glob in
which `*` and `%` stand for any run of characters, `?` and `_` for exactly one character,
and every other character for the characters the `LIKE` comparison of the SQL engine
accepts for it. Under an exact comparison, `a*` matches exactly the ids that start with
`a`, and `a?c` exactly the ids of length 3 that start with `a` and end with `c`. -/
theorem find_spec (qt : Qt) (sys : System) (typeName : List Nat) (pattern : List Char) (env : Env)
    (docs : List QJsonObject) (hn : sys.this.NamesValid)
    (hex : tableNameFor typeName ∈ sys.db.tableNames)
    (h : (LocalStore.find qt sys typeName pattern env).result = .ok docs) :
    (∃ rs, sys.db.rows (tableNameFor typeName) = some rs ∧
      docs.map some = (rs.filter (fun r => globLikeMatch qt.likeEq pattern r.key)).map
        (storedDocument qt sys.fs (tableNameFor typeName))) ∧
    ((∀ a b, qt.likeEq a b = decide (a = b)) → ∀ s,
      (globLikeMatch qt.likeEq "a*".toList s = true ↔ s.head? = some 'a') ∧
      (globLikeMatch qt.likeEq "a?c".toList s = true ↔ ∃ x, s = ['a', x, 'c'])) := by
  refine ⟨?_, fun hexact s => ⟨globLike_star _ hexact s, globLike_a_any_c _ hexact s⟩⟩
  have hg : ∃ this0, getTable sys.db sys.this typeName false env
      = (sys.db, this0, .ok (tableNameFor typeName)) := by
    rw [getTable_eq _ _ _ _ _ hn]
    by_cases h1 : hashContains sys.this.tableNameCache typeName = true
    · rw [if_pos h1]; exact ⟨_, rfl⟩
    · rw [if_neg h1, if_pos hex]; exact ⟨_, rfl⟩
  obtain ⟨this0, hg⟩ := hg
  unfold LocalStore.find at h
  simp only [hg, tableNameFor_isEmpty, Bool.false_eq_true, if_false] at h
  by_cases hq : env.failAt = some Step.query
  · simp [hq] at h
  · simp only [hq, if_false] at h
    cases hrs : sys.db.rows (tableNameFor typeName) with
    | none => simp [hrs] at h
    | some rs =>
      simp only [hrs] at h
      refine ⟨rs, rfl, ?_⟩
      rcases hrr : readRows qt typeName (tableNameFor typeName) env
          (rs.filter (fun r => likeMatch qt.likeEq
            (replaceChar '?' '_' (replaceChar '*' '%' pattern)) r.key))
          sys.fs this0.dataCache with ⟨fs1, c1, res⟩
      rw [hrr] at h
      simp only at h
      subst h
      have := readRows_ok qt typeName _ env _ sys.fs fs1 _ c1 docs hrr
      rw [this]
      congr 2
      funext r
      exact likeMatch_translate qt.likeEq pattern r.key

/-- Witness of C5 (amended): `find("T", "a?c")` on a store holding the id `abc`. -/
theorem find_spec_witness :
    ∃ rs, savedAbc.db.rows (tableNameFor (ascii "T")) = some rs ∧
      [some docA] = (rs.filter (fun r => globLikeMatch demoQt.likeEq "a?c".toList r.key)).map
        (storedDocument demoQt savedAbc.fs (tableNameFor (ascii "T"))) :=
  (find_spec demoQt savedAbc (ascii "T") "a?c".toList Env.calm [docA] (by decide) (by decide)
    (by decide)).1

/-! ### C6 -/

/-- Counterexample to C6 as stated: the type identifiers `QList<int>` and `QList_3Cint_3E`
are distinct and both get the table name `data_QList_3Cint_3E`; the one byte identifiers
0xFF and 0xFE, which are not UTF-8, are distinct and both get the table name of U+FFFD. -/
theorem tableNameFor_collision :
    ascii "QList<int>" ≠ ascii "QList_3Cint_3E" ∧
    tableNameFor (ascii "QList<int>") = "data_QList_3Cint_3E".toList ∧
    tableNameFor (ascii "QList_3Cint_3E") = "data_QList_3Cint_3E".toList ∧
    ([0xFF] : List Nat) ≠ [0xFE] ∧
    tableNameFor [0xFF] = "data__EF_BF_BD".toList ∧
    tableNameFor [0xFE] = "data__EF_BF_BD".toList := by
  decide

/-- C6 (amended). The table name `getTable` returns for a type identifier, when it returns
one, is `data_` followed by the percent-encoding of the decoded identifier with every `%`
replaced by `_`, whatever the database, the handle and the environment; and two distinct
type identifiers get distinct table names when both are well-formed UTF-8, so that
`QString::fromUtf8` decodes them without loss, and neither has a `_` followed by the two
upper-case hexadecimal digits of a byte that the percent-encoding escapes. -/
theorem tableNameFor_collision_free (t1 t2 : List Nat) :
    (∀ (db : Database) (this : LocalStore) (allowCreate : Bool) (env : Env) (name : List Char),
      this.NamesValid → (LocalStore.getTable db this t1 allowCreate env).2.2 = .ok name →
      name ≠ [] →
      name = "data_".toList ++ replaceChar '%' '_' (toPercentEncoding (fromUtf8 t1))) ∧
    (DecodesLosslessly t1 → DecodesLosslessly t2 →
      hasEscapeLookalike t1 = false → hasEscapeLookalike t2 = false →
      t1 ≠ t2 → tableNameFor t1 ≠ tableNameFor t2) := by
  constructor
  · intro db this ac env name hn hres hne
    rcases (getTable_props db this t1 ac env hn).2.2.2.2.2 name hres with ⟨h, _⟩ | ⟨h, _⟩
    · exact h
    · exact absurd h hne
  · intro h1 h2 e1 e2 hne heq
    exact hne (tableNameFor_inj t1 t2 h1 h2 e1 e2 heq)

/-- Witness of C6 (amended): `my_type_41` and `my_type<A>`, the first with underscores and
with `_41`, which spells the unescaped byte `A`, get distinct table names, and the name
`getTable` creates for `my_type_41` on the empty store is the computed one. -/
theorem tableNameFor_collision_free_witness :
    tableNameFor (ascii "my_type_41") ≠ tableNameFor (ascii "my_type<A>") ∧
    "data_my_type_41".toList
      = "data_".toList ++ replaceChar '%' '_' (toPercentEncoding (fromUtf8 (ascii "my_type_41"))) :=
  ⟨(tableNameFor_collision_free (ascii "my_type_41") (ascii "my_type<A>")).2
      (by decide) (by decide) (by decide) (by decide) (by decide),
    (tableNameFor_collision_free (ascii "my_type_41") (ascii "my_type<A>")).1
      emptySystem.db emptySystem.this true Env.calm "data_my_type_41".toList
      (by decide) (by decide) (by decide)⟩

/-! ### C7 -/

/-- Counterexample to C7 as stated: the second handle, of capacity 10, has `keyK` cached;
the first handle saves `docB`, of 14 bytes; after `onDataChange` the cache of the second
handle holds nothing for `keyK`, so its `load(keyK)`, which does return `docB`, is answered
from the backing store. -/
theorem other_cache_drops_large_document :
    twoHandles.others.map (fun h => h.dataCache.peek keyK) = [some docA] ∧
    twoHandles.others.map (fun h => h.dataCache.mx) = [10] ∧
    (demoQt.toBinaryData docB).length = 14 ∧
    (LocalStore.save demoQt twoHandles keyK docB (envTemp "f2")).result = .ok () ∧
    (LocalStore.save demoQt twoHandles keyK docB (envTemp "f2")).sys.others.map
      (fun h => h.dataCache.peek keyK) = [none] ∧
    (LocalStore.save demoQt twoHandles keyK docB (envTemp "f2")).sys.others.map
      (fun h => (LocalStore.load demoQt
        { (LocalStore.save demoQt twoHandles keyK docB (envTemp "f2")).sys with this := h }
        keyK Env.calm).result) = [.ok docB] := by
  decide

/-- C7 (amended). For two handles on one store: after `H1.save(key, data)` succeeded and
`onDataChange` ran on `H2`, a `H2.load(key)` returns `data`, for every document that
survives serialisation; and if `key` was in the cache of `H2` before the save, `data` is
not empty and its byte size does not exceed the capacity of the cache of `H2`, then the
cache of `H2` maps `key` to `data` and the load is answered from it without reading the
backing store: `H2.load(key)` returns `data` over any database and files, in any
environment, and leaves both as they are. If the byte size exceeds the capacity, the cache
of `H2` no longer holds `key`. -/
theorem save_then_other_load (qt : Qt) (sys : System) (key : ObjectKey) (data : QJsonObject)
    (env envL : Env) (h2 : LocalStore) (hn : sys.this.NamesValid)
    (hwell : qt.fromBinaryData (qt.toBinaryData data) = some data)
    (hsave : (LocalStore.save qt sys key data env).result = .ok ())
    (hmem : h2 ∈ sys.others) (hne : h2.self ≠ sys.this.self) (hn2 : h2.NamesValid)
    (hcalm : envL.failAt = none) :
    onDataChange sys.this.self key data ((qt.toBinaryData data).length : Int) h2
      ∈ (LocalStore.save qt sys key data env).sys.others ∧
    (LocalStore.load qt
      { (LocalStore.save qt sys key data env).sys with
        this := onDataChange sys.this.self key data ((qt.toBinaryData data).length : Int) h2 }
      key envL).result = .ok data ∧
    (h2.dataCache.contains key = true → data ≠ [] →
      ((qt.toBinaryData data).length : Int) ≤ h2.dataCache.mx →
      ((onDataChange sys.this.self key data ((qt.toBinaryData data).length : Int)
        h2).dataCache.object key).2 = some data) ∧
    (h2.dataCache.contains key = true → data ≠ [] →
      ((qt.toBinaryData data).length : Int) ≤ h2.dataCache.mx →
      ∀ (store : System) (envA : Env),
        (LocalStore.load qt
          { store with
            this := onDataChange sys.this.self key data ((qt.toBinaryData data).length : Int) h2 }
          key envA).result = .ok data ∧
        (LocalStore.load qt
          { store with
            this := onDataChange sys.this.self key data ((qt.toBinaryData data).length : Int) h2 }
          key envA).sys.db = store.db ∧
        (LocalStore.load qt
          { store with
            this := onDataChange sys.this.self key data ((qt.toBinaryData data).length : Int) h2 }
          key envA).sys.fs = store.fs) ∧
    (h2.dataCache.contains key = true → data ≠ [] →
      ((qt.toBinaryData data).length : Int) > h2.dataCache.mx →
      (onDataChange sys.this.self key data ((qt.toBinaryData data).length : Int)
        h2).dataCache.contains key = false) := by
  obtain ⟨db0, this0, fs1, db1, _, _, hsys⟩ := save_ok qt sys key data env hn hsave
  obtain ⟨row, hrec, _, _, _, hread, _⟩ := save_record qt sys key data env hn hsave
  have hne' : sys.this.self ≠ h2.self := fun h => hne h.symm
  have hcache : (onDataChange sys.this.self key data ((qt.toBinaryData data).length : Int)
      h2).dataCache =
      if h2.dataCache.contains key then
        if data.isEmpty then h2.dataCache.remove key
        else h2.dataCache.insert key data ((qt.toBinaryData data).length : Int)
      else h2.dataCache := by
    unfold onDataChange
    rw [if_pos hne']
  have hfull : (h2.dataCache.contains key = true → data ≠ [] →
      ((qt.toBinaryData data).length : Int) ≤ h2.dataCache.mx →
      ((onDataChange sys.this.self key data ((qt.toBinaryData data).length : Int)
        h2).dataCache.object key).2 = some data) := by
    intro hc hd hle
    have hd2 : data.isEmpty = false := by
      cases data with
      | nil => exact absurd rfl hd
      | cons a l => rfl
    rw [hcache, if_pos hc, hd2]
    exact object_insert_of_le _ _ _ _ hle
  have hover : (h2.dataCache.contains key = true → data ≠ [] →
      ((qt.toBinaryData data).length : Int) > h2.dataCache.mx →
      (onDataChange sys.this.self key data ((qt.toBinaryData data).length : Int)
        h2).dataCache.contains key = false) := by
    intro hc hd hgt
    have hd2 : data.isEmpty = false := by
      cases data with
      | nil => exact absurd rfl hd
      | cons a l => rfl
    rw [hcache, if_pos hc, hd2]
    exact contains_insert_of_gt _ _ _ _ hgt
  refine ⟨?_, ?_, hfull,
    fun hc hd hle store envA => load_of_cached_store qt _ key envA data (hfull hc hd hle),
    hover⟩
  · rw [hsys]
    exact List.mem_map_of_mem _ hmem
  · have hnv := onDataChange_namesValid sys.this.self key data
      ((qt.toBinaryData data).length : Int) h2 hn2
    have hstore : ∀ h : LocalStore, h.NamesValid → h.dataCache.contains key = false →
        (LocalStore.load qt { (LocalStore.save qt sys key data env).sys with this := h }
          key envL).result = .ok data := by
      intro h hnh hmiss
      exact load_of_record qt _ key envL row _ data hnh hmiss hcalm hrec hread hwell
    by_cases hc : h2.dataCache.contains key = true
    · by_cases hd : data = []
      · apply hstore _ hnv
        have hd2 : data.isEmpty = true := by rw [hd]; rfl
        rw [hcache, if_pos hc, hd2, if_pos rfl]
        exact contains_remove _ _
      · by_cases hle : ((qt.toBinaryData data).length : Int) ≤ h2.dataCache.mx
        · exact load_of_cached qt _ key envL data (hfull hc hd hle)
        · exact hstore _ hnv (hover hc hd (by omega))
    · have hcf : h2.dataCache.contains key = false := by simpa using hc
      apply hstore _ hnv
      rw [hcache, hcf]
      exact hcf

/-- Witness of C7 (amended): the second handle has `keyK` cached, the first saves `docC`,
which fits the cache of the second; the second then loads `docC`, from the store the save
left and just so from an empty store in which every step fails. -/
theorem save_then_other_load_witness :
    (LocalStore.load demoQt
      { (LocalStore.save demoQt twoHandles keyK docC (envTemp "f2")).sys with
        this := onDataChange twoHandles.this.self keyK docC
          ((demoQt.toBinaryData docC).length : Int) secondHandle }
      keyK Env.calm).result = .ok docC ∧
    (LocalStore.load demoQt
      { emptySystem with
        this := onDataChange twoHandles.this.self keyK docC
          ((demoQt.toBinaryData docC).length : Int) secondHandle }
      keyK (envFail Step.query "")).result = .ok docC :=
  ⟨(save_then_other_load demoQt twoHandles keyK docC (envTemp "f2") Env.calm secondHandle
      (by decide) (by decide) (by decide) (by decide) (by decide) (by decide) rfl).2.1,
    ((save_then_other_load demoQt twoHandles keyK docC (envTemp "f2") Env.calm secondHandle
      (by decide) (by decide) (by decide) (by decide) (by decide) (by decide) rfl).2.2.2.1
      (by decide) (by decide) (by decide) emptySystem (envFail Step.query "")).1⟩

/-! ### C8 -/

/-- C8. After a successful `clear(type)` of a type whose table exists: `count(type)` is 0,
`keys(type)` is empty, the blob directory of the type does not exist and holds no file, and
neither the table-name cache nor the object cache of the calling handle has an entry for
the type; a following successful `save` of a key of the type recreates table and directory
and stores the record with `Version` 1. -/
theorem clear_spec (qt : Qt) (sys : System) (typeName : List Nat) (env : Env)
    (hn : sys.this.NamesValid) (hex : tableNameFor typeName ∈ sys.db.tableNames)
    (h : (LocalStore.clear sys typeName env).result = .ok ()) :
    (∀ e : Env, (LocalStore.count (LocalStore.clear sys typeName env).sys typeName e).result
      = .ok 0) ∧
    (∀ e : Env, (LocalStore.keys (LocalStore.clear sys typeName env).sys typeName e).result
      = .ok []) ∧
    tableNameFor typeName ∉ (LocalStore.clear sys typeName env).sys.fs.dirs ∧
    (∀ f ∈ (LocalStore.clear sys typeName env).sys.fs.files, f.1.1 ≠ tableNameFor typeName) ∧
    hashContains (LocalStore.clear sys typeName env).sys.this.tableNameCache typeName = false ∧
    (∀ e ∈ (LocalStore.clear sys typeName env).sys.this.dataCache.entries,
      e.key.typeName ≠ typeName) ∧
    (∀ (id : List Char) (data : QJsonObject) (env2 : Env),
      (LocalStore.save qt (LocalStore.clear sys typeName env).sys
        { typeName := typeName, id := id } data env2).result = .ok () →
      tableNameFor typeName ∈ (LocalStore.save qt (LocalStore.clear sys typeName env).sys
        { typeName := typeName, id := id } data env2).sys.db.tableNames ∧
      tableNameFor typeName ∈ (LocalStore.save qt (LocalStore.clear sys typeName env).sys
        { typeName := typeName, id := id } data env2).sys.fs.dirs ∧
      (LocalStore.save qt (LocalStore.clear sys typeName env).sys
        { typeName := typeName, id := id } data env2).sys.db.versionOf
          { typeName := typeName, id := id } = some 1) := by
  obtain ⟨this0, hnv, hself, heq⟩ := clear_ok sys typeName env hn hex h
  rw [heq]
  simp only
  have hcache := onDataReset_some_cache this0.self typeName this0
  have hnot : tableNameFor typeName ∉
      ({ tables := sys.db.tables.filter (fun t => t.1 ≠ tableNameFor typeName) }
        : Database).tableNames := by
    rw [← rows_eq_none_iff]
    exact rows_filter_ne sys.db _
  refine ⟨fun e => count_of_absent _ _ e hcache.1 hnot,
    fun e => keys_of_absent _ _ e hcache.1 hnot, ?_, ?_, hcache.1, hcache.2, ?_⟩
  · simp [FileSystem.removeDir]
  · intro f hf
    simp only [FileSystem.removeDir, List.mem_filter] at hf
    simpa using hf.2
  · intro id data env2 hs
    have hnv' : ({ onDataReset this0.self (some typeName) this0 with
        raised := (onDataReset this0.self (some typeName) this0).raised
          ++ [Signal.dataCleared typeName] } : LocalStore).NamesValid :=
      namesValid_of_cache_eq _ _ rfl (onDataReset_namesValid _ _ _ hnv)
    obtain ⟨row, hrec, _, hver, _, _, htab, hdir⟩ := save_record qt _ _ data env2 hnv' hs
    refine ⟨htab, hdir, ?_⟩
    unfold Database.versionOf at hver ⊢
    rw [hrec]
    simp only [Option.map_some']
    rw [hver]
    have : ({ tables := sys.db.tables.filter (fun t => t.1 ≠ tableNameFor typeName) }
        : Database).record { typeName := typeName, id := id } = none := by
      unfold Database.record
      simp only
      rw [rows_filter_ne]
      rfl
    rw [this]
    rfl

/-- Witness of C8: after two saves of `keyK` and a clear of its type, a save of `keyK`
stores version 1. -/
theorem clear_spec_witness :
    savedTwice.db.versionOf keyK = some 2 ∧
    (LocalStore.save demoQt (LocalStore.clear savedTwice keyK.typeName Env.calm).sys
      { typeName := keyK.typeName, id := keyK.id } docC (envTemp "f3")).sys.db.versionOf
        { typeName := keyK.typeName, id := keyK.id } = some 1 :=
  ⟨by decide,
    ((clear_spec demoQt savedTwice keyK.typeName Env.calm (by decide) (by decide)
      (by decide)).2.2.2.2.2.2 keyK.id docC (envTemp "f3") (by decide)).2.2⟩

/-! ### C9 -/

/-- C9. After a successful `reset()`: no table whose name starts with `data_` remains, so
no table `getTable` names for any type identifier; the `store` directory does not exist,
and what it held is gone with it; the table-name cache and the object cache of the calling handle are empty; and
`count(type)` is 0 for every type. -/
theorem reset_spec (sys : System) (env : Env)
    (h : (LocalStore.reset sys env).result = .ok ()) :
    (∀ n ∈ (LocalStore.reset sys env).sys.db.tableNames, "data_".toList.isPrefixOf n = false) ∧
    (∀ t : List Nat, tableNameFor t ∉ (LocalStore.reset sys env).sys.db.tableNames) ∧
    (LocalStore.reset sys env).sys.fs.storeExists = false ∧
    (sys.fs.storeExists = true → (LocalStore.reset sys env).sys.fs.dirs = [] ∧
      (LocalStore.reset sys env).sys.fs.files = []) ∧
    (LocalStore.reset sys env).sys.this.tableNameCache = [] ∧
    (LocalStore.reset sys env).sys.this.dataCache.entries = [] ∧
    (∀ (t : List Nat) (e : Env),
      (LocalStore.count (LocalStore.reset sys env).sys t e).result = .ok 0) := by
  have heq : ∃ db1, dropManaged env sys.db.tableNames sys.db = .ok db1 ∧
      LocalStore.reset sys env =
        ⟨{ db := db1,
           fs := if sys.fs.storeExists then sys.fs.removeStore else sys.fs,
           this := { onDataReset sys.this.self resetTypeName sys.this with
             raised := (onDataReset sys.this.self resetTypeName sys.this).raised
               ++ [Signal.dataResetted] },
           others := sys.others.map (onDataReset sys.this.self resetTypeName) }, .ok ()⟩ := by
    unfold LocalStore.reset at h ⊢
    by_cases htx : env.failAt = some Step.transaction
    · simp [htx] at h
    · simp only [htx, if_false] at h ⊢
      cases hd : dropManaged env sys.db.tableNames sys.db with
      | error e => simp [hd] at h
      | ok db1 =>
        simp only [hd] at h ⊢
        by_cases hc : env.failAt = some Step.commit
        · simp [hc] at h
        · simp only [hc, if_false] at h ⊢
          split at h
          · simp at h
          · rename_i hrd
            refine ⟨db1, rfl, ?_⟩
            rw [if_neg hrd]
  obtain ⟨db1, hd, heq⟩ := heq
  rw [heq]
  simp only
  obtain ⟨h1, h2⟩ := dropManaged_ok env _ sys.db db1 hd
  have hman : ∀ n ∈ db1.tableNames, "data_".toList.isPrefixOf n = false := by
    intro n hn
    simp only [Database.tableNames, List.mem_map] at hn
    obtain ⟨x, hx, rfl⟩ := hn
    exact h2 x hx (List.mem_map_of_mem _ (h1 x hx))
  have hnot : ∀ t : List Nat, tableNameFor t ∉ db1.tableNames := by
    intro t ht
    have := hman _ ht
    rw [tableNameFor_managed] at this
    cases this
  have hthis : (onDataReset sys.this.self resetTypeName sys.this).tableNameCache = [] ∧
      (onDataReset sys.this.self resetTypeName sys.this).dataCache.entries = [] := by
    unfold onDataReset resetTypeName
    simp [QCache.clear]
  refine ⟨hman, hnot, ?_, ?_, hthis.1, hthis.2, ?_⟩
  · cases hse : sys.fs.storeExists <;> simp [hse, FileSystem.removeStore]
  · intro hse
    simp [hse, FileSystem.removeStore]
  · intro t e
    apply count_of_absent
    · show hashContains (onDataReset sys.this.self resetTypeName sys.this).tableNameCache t
        = false
      rw [hthis.1]
      rfl
    · exact hnot t

/-- Witness of C9: a reset of the store that holds one saved key. -/
theorem reset_spec_witness :
    savedOnce.db.tableNames = [tableNameFor keyK.typeName] ∧
    (LocalStore.reset savedOnce Env.calm).sys.db.tableNames = [] ∧
    (LocalStore.count (LocalStore.reset savedOnce Env.calm).sys keyK.typeName Env.calm).result
      = .ok 0 :=
  ⟨by decide, by decide,
    (reset_spec savedOnce Env.calm (by decide)).2.2.2.2.2.2 keyK.typeName Env.calm⟩

/-! ### C10 -/

/-- C10, the code at the failing input: the first handle saves the empty document under
`keyK`; the call succeeds and the index record exists, the first handle raises
`dataChanged(keyK, false)`, the second handle raises `dataChanged(keyK, true)` and drops
`keyK` from its cache as for a deletion. -/
theorem save_empty_document_reported_deleted :
    (LocalStore.save demoQt twoHandles keyK [] (envTemp "f2")).result = .ok () ∧
    ((LocalStore.save demoQt twoHandles keyK [] (envTemp "f2")).sys.db.record keyK).isSome
      = true ∧
    (LocalStore.save demoQt twoHandles keyK [] (envTemp "f2")).sys.this.raised.getLast?
      = some (Signal.dataChanged keyK false) ∧
    (LocalStore.save demoQt twoHandles keyK [] (envTemp "f2")).sys.others.map
      (fun h => h.raised) = [[Signal.dataChanged keyK true]] ∧
    twoHandles.others.map (fun h => h.dataCache.contains keyK) = [true] ∧
    (LocalStore.save demoQt twoHandles keyK [] (envTemp "f2")).sys.others.map
      (fun h => h.dataCache.contains keyK) = [false] := by
  decide


end QtDataSync
